import Mathlib

/-!
Verification development for the web-crawler-ai repository.

Shallow embedding of the quality scorer (src/core/quality-scorer.js), the
search engine (src/core/search-engine.js), the URL normalizer
(src/utils/url-utils.js) and the crawl scheduler (src/core/crawler.js).
JavaScript numbers are modelled as rationals, Maps as insertion-ordered
association lists, Sets as insertion-ordered duplicate-free lists, and
wall-clock time (Date.now) as an explicit parameter.  Transcendental
primitives (Math.log) and the external tokenizer / keyword extractor are
passed as function parameters.
-/

/-- JavaScript `Math.round`: floor (x + 1/2). -/
def jsRound (x : ℚ) : ℤ := ⌊x + 1/2⌋

/-- Lowercase a character the way JavaScript `toLowerCase` does on ASCII
(Lean core `Char.toLower` is exactly the ASCII mapping). -/
def lowerChars (l : List Char) : List Char := l.map Char.toLower

/-- JavaScript `String.prototype.toLowerCase` restricted to ASCII. -/
def stringToLower (s : String) : String := String.mk (lowerChars s.toList)

/-- Does `hay` contain `needle` as a contiguous substring
(JavaScript `String.prototype.includes`)? -/
def listContainsSub (needle hay : List Char) : Bool :=
  match hay with
  | [] => needle.isEmpty
  | _ :: t => needle.isPrefixOf hay || listContainsSub needle t

/-- `String.prototype.includes` on the model strings. -/
def strIncludes (hay needle : String) : Bool :=
  listContainsSub needle.toList hay.toList

/-- `Array.prototype.join(' ')`. -/
def joinSp (l : List String) : String := String.intercalate " " l

/-- Stable insertion used by the model's stable sorts: `before x y`
says x must come strictly before y; ties keep insertion order, as
JavaScript's Array.prototype.sort guarantees. -/
def insertBy {α : Type} (before : α → α → Bool) (x : α) : List α → List α
  | [] => [x]
  | y :: ys => if before x y then x :: y :: ys else y :: insertBy before x ys

/-- Stable sort by repeated insertion (left-to-right, so equal keys
keep their original order). -/
def sortByStable {α : Type} (before : α → α → Bool) (l : List α) : List α :=
  l.foldl (fun acc x => insertBy before x acc) []

namespace Quality

/-- A heading as consumed by the scorer: only its level matters
(plus text, kept for fidelity with the extractor's shape). -/
structure QHeading where
  level : ℤ
  text : String
deriving Repr, DecidableEq

/-- A link as consumed by `scoreLinkQuality`. -/
structure QLink where
  text : String
  isInternal : Bool
deriving Repr, DecidableEq

/-- An image as consumed by `scoreImagePresence`. -/
structure QImage where
  alt : String
deriving Repr, DecidableEq

/-- The structured document fed to QualityScorer.calculate.  Absent
string fields are the empty string (JavaScript falsy); `publishDate`
is epoch milliseconds, `none` when absent or unparseable.  Each
structured-data record is represented by its `type` string. -/
structure QDoc where
  wordCount : ℚ
  headings : List QHeading
  title : String
  description : String
  author : String
  publishDate : Option ℚ
  keywords : List String
  links : List QLink
  images : List QImage
  paragraphs : List String
  structuredData : List String
deriving Repr

/-- Thresholds from the QualityScorer constructor. -/
def minWordCount : ℚ := 100
def optimalWordCount : ℚ := 800
def maxWordCount : ℚ := 5000
def optimalHeadings : ℚ := 5

/-- QualityScorer.scoreWordCount: piecewise-linear word-count sub-score. -/
def scoreWordCount (wordCount : ℚ) : ℚ :=
  if wordCount < minWordCount then
    (wordCount / minWordCount) * 50
  else if wordCount ≤ optimalWordCount then
    50 + ((wordCount - minWordCount) / (optimalWordCount - minWordCount)) * 50
  else if wordCount ≤ maxWordCount then
    100 - ((wordCount - optimalWordCount) / (maxWordCount - optimalWordCount)) * 20
  else
    80

/-- The hierarchy counter inside scoreHeadingStructure: number of
consecutive pairs whose level does not skip more than one. -/
def hierCount : List ℤ → Nat
  | [] => 0
  | [_] => 0
  | a :: b :: t => (if b ≤ a + 1 then 1 else 0) + hierCount (b :: t)

/-- QualityScorer.scoreHeadingStructure. -/
def scoreHeadingStructure (headings : List QHeading) : ℚ :=
  if headings = [] then 0
  else
    let levels := headings.map (·.level)
    let score : ℚ := min ((headings.length : ℚ) / optimalHeadings) 1 * 60
    let score := score + (if levels.contains 1 then 20 else 0)
    let score := score + (if levels.dedup.length > 1 then 20 else 0)
    let hierarchyScore : ℚ := (hierCount levels : ℚ)
    let score :=
      if headings.length > 1 then
        score + (hierarchyScore / ((headings.length : ℚ) - 1)) * 20
      else score
    min score 100

/-- QualityScorer.scoreMetaInformation. -/
def scoreMetaInformation (c : QDoc) : ℚ :=
  let score : ℚ := 0
  let score := score +
    (if c.title ≠ "" then
      25 + (if 10 ≤ c.title.length ∧ c.title.length ≤ 70 then (15 : ℚ) else 0)
     else 0)
  let score := score +
    (if c.description ≠ "" then
      25 + (if 50 ≤ c.description.length ∧ c.description.length ≤ 300 then (15 : ℚ) else 0)
     else 0)
  let score := score + (if c.author ≠ "" then 10 else 0)
  let score := score + (if c.publishDate.isSome then 10 else 0)
  let score := score + (if c.keywords ≠ [] then 10 else 0)
  min score 100

/-- QualityScorer.scoreLinkQuality. -/
def scoreLinkQuality (links : List QLink) : ℚ :=
  if links = [] then 0
  else
    let internalLinks := links.filter (·.isInternal)
    let externalLinks := links.filter (fun l => ¬ l.isInternal)
    let score : ℚ := min ((links.length : ℚ) / 10) 1 * 30
    let score := score + (if internalLinks.length > 0 then 20 else 0)
    let score := score + (if externalLinks.length > 0 then 10 else 0)
    let qualityLinks := links.filter (fun l =>
      l.text ≠ "" ∧ l.text.length > 5 ∧ ¬ strIncludes (stringToLower l.text) "click here")
    let score := score + ((qualityLinks.length : ℚ) / (links.length : ℚ)) * 40
    min score 100

/-- QualityScorer.scoreImagePresence. -/
def scoreImagePresence (images : List QImage) : ℚ :=
  if images = [] then 0
  else
    let score : ℚ := 30
    let imagesWithAlt := images.filter (fun i => i.alt ≠ "" ∧ i.alt.length > 5)
    let score := score + ((imagesWithAlt.length : ℚ) / (images.length : ℚ)) * 40
    let score := score + (if 2 ≤ images.length ∧ images.length ≤ 10 then 30 else 0)
    min score 100

/-- Split a character list at every delimiter character.  Models the
regex split on `[.!?]+`: consecutive delimiters here yield empty pieces,
which the caller filters away by the minimum-length test, giving the
same surviving sentences as the regex. -/
def splitDelims (isDelim : Char → Bool) : List Char → List (List Char)
  | [] => [[]]
  | c :: t =>
    let r := splitDelims isDelim t
    if isDelim c then [] :: r
    else
      match r with
      | [] => [[c]]
      | h :: rt => (c :: h) :: rt

/-- JavaScript `String.prototype.trim` on the model strings. -/
def trimChars (l : List Char) : List Char :=
  ((l.dropWhile Char.isWhitespace).reverse.dropWhile Char.isWhitespace).reverse

/-- QualityScorer.scoreTextQuality.  `extractKeywords` stands for the
textProcessor.extractKeywords collaborator (called with maxKeywords 20). -/
def scoreTextQuality (extractKeywords : String → List String) (c : QDoc) : ℚ :=
  let allText := joinSp ([c.title, c.description] ++ c.paragraphs)
  if allText = "" then 0
  else
    let score : ℚ := 0
    let score :=
      if c.paragraphs ≠ [] then
        let score := score + min ((c.paragraphs.length : ℚ) / 5) 1 * 25
        let avgLength : ℚ :=
          ((c.paragraphs.map (·.length)).sum : ℚ) / (c.paragraphs.length : ℚ)
        if 50 ≤ avgLength ∧ avgLength ≤ 200 then score + 25 else score
      else score
    let sentences := (splitDelims (fun ch => ch = '.' ∨ ch = '!' ∨ ch = '?') allText.toList).filter
      (fun s => (trimChars s).length > 10)
    let score :=
      if sentences ≠ [] then
        let avgSentenceLength : ℚ := (allText.length : ℚ) / (sentences.length : ℚ)
        if 15 ≤ avgSentenceLength ∧ avgSentenceLength ≤ 30 then score + 25 else score
      else score
    let score := if (extractKeywords allText).length ≥ 5 then score + 25 else score
    min score 100

/-- QualityScorer.scoreStructuredData. -/
def scoreStructuredData (structuredData : List String) : ℚ :=
  if structuredData = [] then 0
  else
    let score : ℚ := 50
    let score := score + (if structuredData.contains "json-ld" then 30 else 0)
    let score := score + (if structuredData.contains "microdata" then 20 else 0)
    min score 100

/-- QualityScorer.scoreFreshness; `now` is Date.now() in epoch millis. -/
def scoreFreshness (now : ℚ) (publishDate : Option ℚ) : ℚ :=
  match publishDate with
  | none => 50
  | some pd =>
    let daysDiff : ℚ := (now - pd) / (1000 * 60 * 60 * 24)
    if daysDiff < 0 then 50
    else if daysDiff ≤ 7 then 100
    else if daysDiff ≤ 30 then 90
    else if daysDiff ≤ 90 then 80
    else if daysDiff ≤ 365 then 70
    else if daysDiff ≤ 730 then 60
    else 50

/-- QualityScorer.calculate: weighted sum of the eight sub-scores,
rounded and clamped to [0, 100].  `none` models a null content argument. -/
def calculate (extractKeywords : String → List String) (now : ℚ)
    (content : Option QDoc) : ℤ :=
  match content with
  | none => 0
  | some c =>
    let totalScore : ℚ :=
      scoreWordCount c.wordCount * (2/10)
      + scoreHeadingStructure c.headings * (15/100)
      + scoreMetaInformation c * (15/100)
      + scoreLinkQuality c.links * (1/10)
      + scoreImagePresence c.images * (5/100)
      + scoreTextQuality extractKeywords c * (2/10)
      + scoreStructuredData c.structuredData * (1/10)
      + scoreFreshness now c.publishDate * (5/100)
    min (max (jsRound totalScore) 0) 100

end Quality

namespace SearchModel

/-- Insertion-ordered association-list lookup (JavaScript `Map.get`). -/
def getA {k v : Type} [DecidableEq k] (l : List (k × v)) (key : k) : Option v :=
  match l with
  | [] => none
  | (a, b) :: t => if a = key then some b else getA t key

/-- `Map.set`: update in place when the key exists (JS Maps keep the
original insertion position), append otherwise. -/
def setA {k v : Type} [DecidableEq k] (l : List (k × v)) (key : k) (val : v) :
    List (k × v) :=
  match l with
  | [] => [(key, val)]
  | (a, b) :: t => if a = key then (a, val) :: t else (a, b) :: setA t key val

/-- `Set.add`: append when absent (JS Sets preserve insertion order). -/
def addToSet {α : Type} [DecidableEq α] (l : List α) (x : α) : List α :=
  if l.contains x then l else l ++ [x]

/-- The content fields read by SearchEngine.indexContent.  `headings` is
the list of heading texts (the source maps `h => h.text`); `publishDate`
is epoch milliseconds (`none` when absent). -/
structure SContent where
  url : String
  title : String
  description : String
  qualityScore : ℚ
  contentType : String
  publishDate : Option ℚ
  wordCount : Nat
  topics : List String
  headings : List String
  paragraphs : List String
  keywords : List String
deriving Repr, DecidableEq

/-- The projection stored in the engine's contentStore. -/
structure ContentMeta where
  url : String
  title : String
  description : String
  qualityScore : ℚ
  contentType : String
  publishDate : Option ℚ
  wordCount : Nat
  topics : List String
deriving Repr, DecidableEq

/-- The per-document record stored in `this.index`: the six tokenized
fields, the concatenated lowercased text, the distinct terms and their
count. -/
structure IndexData where
  titleTerms : List String
  descriptionTerms : List String
  headingsTerms : List String
  contentTerms : List String
  keywordsTerms : List String
  topicsTerms : List String
  allText : String
  terms : List String
  termCount : Nat
deriving Repr, DecidableEq

/-- The SearchEngine state: five insertion-ordered maps/sets plus the
total-document counter (the Map/Set fields of the class). -/
structure SearchState where
  index : List (String × IndexData)
  invertedIndex : List (String × List String)
  termFrequency : List (String × List (String × ℚ))
  documentFrequency : List (String × Nat)
  contentStore : List (String × ContentMeta)
  totalDocuments : Nat
deriving Repr, DecidableEq

/-- The freshly constructed engine. -/
def emptySearchState : SearchState :=
  { index := [], invertedIndex := [], termFrequency := [],
    documentFrequency := [], contentStore := [], totalDocuments := 0 }

/-- Field boost used while indexing: `this.boostFactors[field] || 1`
with the boost factors of config/default.js (title 10, description 5,
headings 3, content 2, keywords 4; topics has no entry, so 1). -/
def fieldBoost (field : String) : ℚ :=
  if field = "title" then 10
  else if field = "description" then 5
  else if field = "headings" then 3
  else if field = "content" then 2
  else if field = "keywords" then 4
  else 1

/-- The per-term update of the inverted index and the document
frequency table inside indexContent: initialize missing entries, then
add the document and bump the frequency only when the document is not
yet in the term's posting set. -/
def invDfStep (contentId : String)
    (acc : List (String × List String) × List (String × Nat))
    (term : String) : List (String × List String) × List (String × Nat) :=
  let (inv, df) := acc
  let (inv, df) :=
    if (getA inv term).isSome then (inv, df)
    else (setA inv term [], setA df term 0)
  let docs := (getA inv term).getD []
  if docs.contains contentId then (inv, df)
  else (setA inv term (docs ++ [contentId]),
        setA df term (((getA df term).getD 0) + 1))

/-- SearchEngine.indexContent.  `tok` is the shared tokenizer
(textProcessor.tokenize with the engine's fixed options), passed as a
parameter because the text-processor module is an external collaborator
of this model. -/
def indexContent (tok : String → List String) (st : SearchState)
    (contentId : String) (content : SContent) : SearchState :=
  let meta : ContentMeta :=
    { url := content.url, title := content.title,
      description := content.description, qualityScore := content.qualityScore,
      contentType := content.contentType, publishDate := content.publishDate,
      wordCount := content.wordCount, topics := content.topics }
  let searchableFields : List (String × String) :=
    [("title", content.title),
     ("description", content.description),
     ("headings", joinSp content.headings),
     ("content", joinSp content.paragraphs),
     ("keywords", joinSp content.keywords),
     ("topics", joinSp content.topics)]
  let fieldTerms : List (String × List String) :=
    searchableFields.map (fun p => (p.1, tok p.2))
  let allTerms : List String :=
    fieldTerms.foldl (fun acc p => p.2.foldl addToSet acc) []
  let termFreq : List (String × ℚ) :=
    fieldTerms.foldl (fun tf p =>
      p.2.foldl (fun tf term =>
        setA tf term (((getA tf term).getD 0) + fieldBoost p.1)) tf) []
  let invDf := allTerms.foldl (invDfStep contentId)
    (st.invertedIndex, st.documentFrequency)
  let indexData : IndexData :=
    { titleTerms := (getA fieldTerms "title").getD [],
      descriptionTerms := (getA fieldTerms "description").getD [],
      headingsTerms := (getA fieldTerms "headings").getD [],
      contentTerms := (getA fieldTerms "content").getD [],
      keywordsTerms := (getA fieldTerms "keywords").getD [],
      topicsTerms := (getA fieldTerms "topics").getD [],
      allText := stringToLower (joinSp (searchableFields.map (·.2))),
      terms := allTerms,
      termCount := allTerms.length }
  { index := setA st.index contentId indexData,
    invertedIndex := invDf.1,
    termFrequency := setA st.termFrequency contentId termFreq,
    documentFrequency := invDf.2,
    contentStore := setA st.contentStore contentId meta,
    totalDocuments := st.totalDocuments + 1 }

/-- A sequence of indexContent calls starting from the fresh engine. -/
def runIndex (tok : String → List String)
    (calls : List (String × SContent)) : SearchState :=
  calls.foldl (fun st c => indexContent tok st c.1 c.2) emptySearchState

/-- The posting list of a term (empty when the term is unknown). -/
def postings (st : SearchState) (term : String) : List String :=
  (getA st.invertedIndex term).getD []

/-- The document-frequency entry of a term (0 when the term is unknown). -/
def dfOf (st : SearchState) (term : String) : Nat :=
  (getA st.documentFrequency term).getD 0

/-- SearchEngine.clear. -/
def clearSearch (_st : SearchState) : SearchState := emptySearchState

/-- The flat snapshot produced by exportIndex: every Map becomes its
entry list and every posting Set its element array, all order-preserving. -/
structure ExportData where
  index : List (String × IndexData)
  invertedIndex : List (String × List String)
  termFrequency : List (String × List (String × ℚ))
  documentFrequency : List (String × Nat)
  contentStore : List (String × ContentMeta)
  totalDocuments : Nat
deriving Repr, DecidableEq

/-- SearchEngine.exportIndex. -/
def exportIndex (st : SearchState) : ExportData :=
  { index := st.index,
    invertedIndex := st.invertedIndex.map (fun p => (p.1, p.2)),
    termFrequency := st.termFrequency.map (fun p => (p.1, p.2)),
    documentFrequency := st.documentFrequency,
    contentStore := st.contentStore,
    totalDocuments := st.totalDocuments }

/-- SearchEngine.importIndex: rebuilds every Map/Set from the entry
lists (`indexData.totalDocuments || 0` is the identity on naturals
since 0 maps to 0). -/
def importIndex (d : ExportData) : SearchState :=
  { index := d.index,
    invertedIndex := d.invertedIndex.map (fun p => (p.1, p.2)),
    termFrequency := d.termFrequency.map (fun p => (p.1, p.2)),
    documentFrequency := d.documentFrequency,
    contentStore := d.contentStore,
    totalDocuments := d.totalDocuments }

/-- Search filters; JavaScript truthiness guards each one (a present
but zero `minQuality`, for instance, disables the filter). -/
structure Filters where
  contentType : Option String := none
  minQuality : Option ℚ := none
  maxAge : Option ℚ := none
  minWordCount : Option Nat := none
  topics : Option (List String) := none
deriving Repr, DecidableEq

/-- Search options. -/
structure SearchOptions where
  limit : Option Nat := none
  offset : Option Nat := none
  filters : Option Filters := none
deriving Repr, DecidableEq

/-- One entry of the ranked result list. -/
structure SearchResult where
  url : String
  title : String
  description : String
  contentType : String
  qualityScore : ℚ
  wordCount : Nat
  publishDate : Option ℚ
  topics : List String
  relevanceScore : ℚ
deriving Repr, DecidableEq

/-- The value returned by search (`took` is wall-clock time, modelled
as 0). -/
structure SearchOutput where
  results : List SearchResult
  total : Nat
  query : String
  took : Nat
deriving Repr, DecidableEq

/-- Truthiness of an optional rational (JS: absent, 0 are falsy). -/
def truthyQ (x : Option ℚ) : Bool :=
  match x with
  | none => false
  | some v => v ≠ 0

/-- Truthiness of an optional natural. -/
def truthyN (x : Option Nat) : Bool :=
  match x with
  | none => false
  | some v => v ≠ 0

/-- Truthiness of an optional string (absent, "" are falsy). -/
def truthyS (x : Option String) : Bool :=
  match x with
  | none => false
  | some v => v ≠ ""

/-- SearchEngine.passesFilters; `now` is Date.now() in epoch millis. -/
def passesFilters (now : ℚ) (content : ContentMeta) (filters : Filters) : Bool :=
  if truthyS filters.contentType && (some content.contentType ≠ filters.contentType : Bool) then false
  else if truthyQ filters.minQuality && decide (content.qualityScore < filters.minQuality.getD 0) then false
  else if truthyQ filters.maxAge &&
      (match content.publishDate with
       | some pd => decide ((now - pd) / (1000 * 60 * 60 * 24) > filters.maxAge.getD 0)
       | none => false) then false
  else if truthyN filters.minWordCount && decide (content.wordCount < filters.minWordCount.getD 0) then false
  else if (match filters.topics with
           | some ts => !ts.isEmpty && !(ts.any (fun t => content.topics.contains t))
           | none => false) then false
  else true

/-- calculateStringSimilarity: crude edit-count approximation. -/
def stringSimilarity (str1 str2 : String) : ℚ :=
  if str1 = str2 then 1
  else if str1.length = 0 ∨ str2.length = 0 then 0
  else
    let l1 := str1.toList
    let l2 := str2.toList
    let longer := if l1.length > l2.length then l1 else l2
    let shorter := if l1.length > l2.length then l2 else l1
    let distance :=
      ((longer.zip shorter).countP (fun p => p.1 ≠ p.2)) +
        (longer.length - shorter.length)
    ((longer.length : ℚ) - (distance : ℚ)) / (longer.length : ℚ)

/-- findSimilarTerms: index terms within similarity 0.8 of the query
term, in index insertion order. -/
def findSimilarTerms (st : SearchState) (term : String) : List String :=
  st.invertedIndex.foldl (fun acc p =>
    if p.1 ≠ term ∧ (p.1.length : ℤ) ≥ (term.length : ℤ) - 1 ∧
        stringSimilarity term p.1 ≥ 8/10 then
      acc ++ [p.1]
    else acc) []

/-- getCandidateDocuments: union of exact and fuzzy posting lists
(enableFuzzySearch is true in config/default.js). -/
def getCandidateDocuments (st : SearchState) (queryTerms : List String) :
    List String :=
  queryTerms.foldl (fun candidates term =>
    let candidates :=
      match getA st.invertedIndex term with
      | some docs => docs.foldl addToSet candidates
      | none => candidates
    if term.length > 3 then
      (findSimilarTerms st term).foldl (fun candidates similarTerm =>
        match getA st.invertedIndex similarTerm with
        | some docs => docs.foldl addToSet candidates
        | none => candidates) candidates
    else candidates) []

/-- Count the non-overlapping left-to-right occurrences of `pat` in
`text` (the global regex match of calculateExactPhraseBonus on a
pattern without metacharacters). -/
def countOccur (pat : List Char) : List Char → Nat
  | [] => 0
  | c :: rest =>
    if pat.isEmpty then 0
    else if pat.isPrefixOf (c :: rest) then
      1 + countOccur pat ((c :: rest).drop pat.length)
    else countOccur pat rest
termination_by l => l.length
decreasing_by
  · simp only [List.length_drop, List.length_cons]
    have : 1 ≤ pat.length := by
      cases pat with
      | nil => simp [List.isEmpty] at *
      | cons a t => simp
    omega
  · simp

/-- calculateExactPhraseBonus. -/
def exactPhraseBonus (logF : ℚ → ℚ) (phrase text : String) : ℚ :=
  if phrase = "" ∨ text = "" then 0
  else
    let numMatches := countOccur (lowerChars phrase.toList) (lowerChars text.toList)
    if numMatches > 0 then logF (1 + (numMatches : ℚ)) else 0

/-- calculateFieldMatchBonus. -/
def fieldMatchBonus (queryTerms fieldTerms : List String) (boostFactor : ℚ) : ℚ :=
  if fieldTerms = [] then 0
  else
    let numMatches := queryTerms.countP (fun t => fieldTerms.contains t)
    if numMatches > 0 then ((numMatches : ℚ) / (queryTerms.length : ℚ)) * boostFactor
    else 0

/-- getContentTypeBonus. -/
def contentTypeBonus (contentType : String) : ℚ :=
  if contentType = "article" then 2/10
  else if contentType = "blog-post" then 15/100
  else if contentType = "tutorial" then 25/100
  else if contentType = "news-article" then 1/10
  else if contentType = "review" then 1/10
  else if contentType = "product-page" then 5/100
  else if contentType = "recipe" then 15/100
  else 0

/-- calculateRelevanceScore.  `logF` models Math.log; `now` Date.now().
The queryVector argument is received but, as in the source, never
used. -/
def calculateRelevanceScore (logF : ℚ → ℚ) (now : ℚ) (st : SearchState)
    (contentId : String) (queryTerms : List String)
    (_queryVector : List (String × Nat)) (indexData : IndexData)
    (content : ContentMeta) : ℚ :=
  match getA st.termFrequency contentId with
  | none => 0
  | some termFreq =>
    let score : ℚ := queryTerms.foldl (fun score term =>
      let tf := (getA termFreq term).getD 0
      if tf > 0 then
        let df : ℚ :=
          match getA st.documentFrequency term with
          | some d => if d = 0 then 1 else (d : ℚ)
          | none => 1
        score + tf * logF ((st.totalDocuments : ℚ) / df)
      else score) 0
    let score := score + exactPhraseBonus logF (joinSp queryTerms) indexData.allText * 5
    let score := score + fieldMatchBonus queryTerms indexData.titleTerms 10
    let score := score + fieldMatchBonus queryTerms indexData.descriptionTerms 5
    let score := score + content.qualityScore * (1/10)
    let score := score +
      (match content.publishDate with
       | some pd =>
         let daysSincePublish := (now - pd) / (1000 * 60 * 60 * 24)
         max 0 ((365 - daysSincePublish) / 365) * (1/10)
       | none => 0)
    let score := score + contentTypeBonus content.contentType
    let lengthNorm := logF (1 + (if indexData.termCount = 0 then 1 else (indexData.termCount : ℚ)))
    let score := score / lengthNorm
    max score 0

/-- createQueryVector. -/
def createQueryVector (queryTerms : List String) : List (String × Nat) :=
  queryTerms.foldl (fun vector term =>
    setA vector term (((getA vector term).getD 0) + 1)) []

/-- A scored candidate prior to pagination. -/
structure Scored where
  contentId : String
  score : ℚ
  content : ContentMeta
deriving Repr, DecidableEq

/-- SearchEngine.search.  Wall-clock elapsed time is modelled as 0;
`tok` is the shared tokenizer, also applied to the lowercased query as
in the source; configuration values are those of config/default.js
(defaultLimit 10, maxLimit 100, minQueryLength 2, fuzzy enabled). -/
def search (tok : String → List String) (logF : ℚ → ℚ) (now : ℚ)
    (st : SearchState) (query : String) (options : SearchOptions) :
    SearchOutput :=
  let limit :=
    min (match options.limit with
         | some l => if l = 0 then 10 else l
         | none => 10) 100
  let offset := (options.offset).getD 0
  let filters := (options.filters).getD {}
  if query.length < 2 then
    { results := [], total := 0, query := query, took := 0 }
  else
    let queryTerms := tok (stringToLower query)
    let queryVector := createQueryVector queryTerms
    let candidates := getCandidateDocuments st queryTerms
    if candidates = [] then
      { results := [], total := 0, query := query, took := 0 }
    else
      let scoredResults : List Scored := candidates.foldl (fun acc contentId =>
        match getA st.contentStore contentId, getA st.index contentId with
        | some content, some indexData =>
          if passesFilters now content filters then
            let score := calculateRelevanceScore logF now st contentId
              queryTerms queryVector indexData content
            if score > 0 then
              acc ++ [{ contentId := contentId, score := score, content := content }]
            else acc
          else acc
        | _, _ => acc) []
      let sorted := sortByStable (fun a b => a.score > b.score) scoredResults
      let paginated := (sorted.drop offset).take limit
      { results := paginated.map (fun r =>
          { url := r.content.url, title := r.content.title,
            description := r.content.description,
            contentType := r.content.contentType,
            qualityScore := r.content.qualityScore,
            wordCount := r.content.wordCount,
            publishDate := r.content.publishDate,
            topics := r.content.topics,
            relevanceScore := (jsRound (r.score * 100) : ℚ) / 100 }),
        total := scoredResults.length, query := query, took := 0 }

/-- The document-frequency invariant: every posting list is
duplicate-free and the document-frequency entry of a term equals the
length of its posting list. -/
def DFInv (inv : List (String × List String)) (df : List (String × Nat)) : Prop :=
  ∀ t, ((getA inv t).getD []).Nodup ∧ (getA df t).getD 0 = ((getA inv t).getD []).length

end SearchModel


namespace UrlModel

/-!
Model of UrlUtils.normalize (src/utils/url-utils.js).  The WHATWG URL
class is modelled for http(s) URLs over a plain-character alphabet:
percent-encoding, IDNA and userinfo/port handling are outside the
model.  A URL string splits into scheme, host (lowercased by the
parser, as the URL class does), path, query parameters and fragment;
`searchParams.sort()` is a stable sort by code units of the parameter
names; the final `toString().toLowerCase()` lowercases the entire
serialized URL.
-/

/-- Split at the first occurrence of `c`: the part before it, and
(when present) the part after it. -/
def splitFirst (c : Char) : List Char → List Char × Option (List Char)
  | [] => ([], none)
  | x :: xs =>
    if x = c then ([], some xs)
    else
      let r := splitFirst c xs
      (x :: r.1, r.2)

/-- Split at every occurrence of `c`. -/
def splitEvery (c : Char) : List Char → List (List Char)
  | [] => [[]]
  | x :: xs =>
    let r := splitEvery c xs
    if x = c then [] :: r
    else
      match r with
      | [] => [[x]]
      | h :: t => (x :: h) :: t

/-- Boolean prefix test on character lists. -/
def isPrefixList : List Char → List Char → Bool
  | [], _ => true
  | _ :: _, [] => false
  | a :: as, b :: bs => a = b && isPrefixList as bs

/-- A parsed http(s) URL. -/
structure UrlRecord where
  secure : Bool
  host : List Char
  path : List Char
  params : List (List Char × List Char)
  frag : List Char
deriving Repr, DecidableEq

/-- One `name=value` segment of a query string (a segment without `=`
is a name with empty value, as in URLSearchParams). -/
def parseSegment (seg : List Char) : List Char × List Char :=
  match splitFirst '=' seg with
  | (name, some value) => (name, value)
  | (name, none) => (name, [])

/-- URLSearchParams parsing of a query string: split on `&`, drop
empty segments, split each at the first `=`. -/
def parseQuery (q : List Char) : List (List Char × List Char) :=
  ((splitEvery '&' q).filter (· ≠ [])).map parseSegment

/-- Parse host and path out of the part following the scheme; as in
the URL class the host is lowercased at parse time and must be
nonempty. -/
def parseHostRest (secure : Bool) (rest : List Char)
    (params : List (List Char × List Char)) (frag : List Char) :
    Option UrlRecord :=
  let hp := splitFirst '/' rest
  if hp.1 = [] then none
  else some { secure := secure, host := lowerChars hp.1,
              path := match hp.2 with
                      | none => []
                      | some p => '/' :: p,
              params := params, frag := frag }

/-- Parse an http(s) URL string: fragment after the first `#`, query
after the first `?`, then scheme, host and path. -/
def parseUrl (l : List Char) : Option UrlRecord :=
  let bf := splitFirst '#' l
  let bq := splitFirst '?' bf.1
  let params := parseQuery (bq.2.getD [])
  let frag := bf.2.getD []
  if isPrefixList "http://".toList bq.1 then
    parseHostRest false (bq.1.drop 7) params frag
  else if isPrefixList "https://".toList bq.1 then
    parseHostRest true (bq.1.drop 8) params frag
  else none

/-- The tracking parameters deleted by UrlUtils.normalize. -/
def trackingParams : List (List Char) :=
  ["utm_source", "utm_medium", "utm_campaign", "utm_term", "utm_content",
   "fbclid", "gclid", "ref", "source"].map String.toList

/-- Code-unit comparison of parameter names (the comparator of
`URLSearchParams.sort`). -/
def ltName : List Char → List Char → Bool
  | [], [] => false
  | [], _ :: _ => true
  | _ :: _, [] => false
  | a :: as, b :: bs =>
    if a.toNat < b.toNat then true
    else if b.toNat < a.toNat then false
    else ltName as bs

/-- The in-place part of normalize: clear the fragment, delete the
tracking parameters, stable-sort the remaining parameters by name,
and make an empty pathname `/`. -/
def normCore (u : UrlRecord) : UrlRecord :=
  let params := u.params.filter (fun p => ¬ trackingParams.contains p.1)
  let params := sortByStable (fun a b => ltName a.1 b.1) params
  { u with frag := [],
           params := params,
           path := if u.path = [] then ['/'] else u.path }

/-- Join pieces with a separator character (the query string is the
`&`-joined list of `name=value` segments). -/
def joinWith (c : Char) : List (List Char) → List Char
  | [] => []
  | [s] => s
  | s :: rest => s ++ c :: joinWith c rest

/-- URL serialization (`toString`). -/
def serializeUrl (u : UrlRecord) : List Char :=
  (if u.secure then "https://".toList else "http://".toList)
    ++ u.host ++ u.path
    ++ (if u.params = [] then []
        else '?' :: joinWith '&'
          (u.params.map (fun p => p.1 ++ '=' :: p.2)))
    ++ (if u.frag = [] then [] else '#' :: u.frag)

/-- UrlUtils.normalize: parse, clean up, serialize, lowercase the
whole string; `none` models the `null` returned when parsing throws. -/
def normalize (s : String) : Option String :=
  (parseUrl s.toList).map
    (fun u => String.mk (lowerChars (serializeUrl (normCore u))))

/-- Componentwise lowering of a parsed URL (what lowercasing the
serialized string does to its parts). -/
def lowerRecord (u : UrlRecord) : UrlRecord :=
  { secure := u.secure, host := lowerChars u.host, path := lowerChars u.path,
    params := u.params.map (fun p => (lowerChars p.1, lowerChars p.2)),
    frag := lowerChars u.frag }

end UrlModel


namespace Crawler

/-!
Model of the WebCrawlerAI scheduler (src/core/crawler.js).  The
browser fetch plus content extraction is a black-box collaborator,
modelled by a `World` mapping each normalized URL to a fetch outcome;
the link analyzer is the `prioritize` parameter (its output is the
scored, filtered, descending-sorted link list of
LinkAnalyzer.prioritizeLinks).  `canCrawl` is identically true: the
robots-parser module of the repository is a stub without the
`fetch`/`canCrawl` functions the crawler calls, so the call throws and
the surrounding try/catch returns true (and it also returns true when
`respectRobots` is off).  Batch crawling awaits every crawlUrl call,
so the model is sequential; timing waits (waitForSlot, delays,
backoff) affect no modelled state.  Ghost fields record the fetch
attempts, the emitted crawl-error events and the number of scheduled
children. -/

/-- An outbound link as consumed by scheduleChildUrls: its URL and the
priority assigned by the link analyzer. -/
structure CLink where
  url : String
  priority : ℚ
deriving Repr, DecidableEq

/-- The extracted page content relevant to scheduling. -/
structure Page where
  links : List CLink
deriving Repr, DecidableEq

/-- Outcome of fetching and extracting one page: the extracted content
or the thrown error's message. -/
inductive FetchOutcome where
  | success (page : Page)
  | failure (msg : String)
deriving Repr, DecidableEq

/-- Did the fetch fail? -/
def FetchOutcome.isFailure : FetchOutcome → Bool
  | .success _ => false
  | .failure _ => true

/-- The deterministic fetch environment, keyed by normalized URL. -/
def World := String → FetchOutcome

/-- The options object accepted by the WebCrawlerAI constructor
(the fields the crawler reads). -/
structure CrawlOptions where
  maxConcurrency : Option Nat := none
  maxDepth : Option Nat := none
  delay : Option Nat := none
deriving Repr, DecidableEq

/-- The effective crawler configuration. -/
structure CrawlerConfig where
  maxConcurrency : Nat
  maxDepth : Nat
  delay : Nat
deriving Repr, DecidableEq

/-- JavaScript `v || d` on numbers: `d` when `v` is falsy (0). -/
def jsOrNat (v d : Nat) : Nat := if v = 0 then d else v

/-- The WebCrawlerAI constructor: `{...config.crawler, ...options}`
followed by `|| default` for each field, with the config/default.js
values (maxConcurrency 5, maxDepth 3, delay 1000). -/
def mkConfig (o : CrawlOptions) : CrawlerConfig :=
  { maxConcurrency := jsOrNat (o.maxConcurrency.getD 5) 5,
    maxDepth := jsOrNat (o.maxDepth.getD 3) 3,
    delay := jsOrNat (o.delay.getD 1000) 1000 }

/-- A frontier entry's metadata. -/
structure PendingMeta where
  depth : Nat
  priority : ℚ
  parent : Option String
deriving Repr, DecidableEq

/-- A stored crawled document (content id modelled by the URL itself,
since the md5 id of generateContentId is an injective key). -/
structure CrawledDoc where
  url : String
  page : Page
  crawlDepth : Nat
  crawlPriority : ℚ
deriving Repr, DecidableEq

/-- The crawler's mutable state.  `fetchLog`, `crawlErrorEvents` and
`scheduledChildren` are ghost instrumentation recording page-fetch
attempts, emitted crawl-error events and frontier insertions made by
scheduleChildUrls. -/
structure CrawlerState where
  crawledUrls : List String
  failedUrls : List String
  pendingUrls : List (String × PendingMeta)
  activeCrawls : ℤ
  totalRequested : Nat
  totalCompleted : Nat
  totalFailed : Nat
  contentStore : List (String × CrawledDoc)
  fetchLog : List String
  crawlErrorEvents : List String
  scheduledChildren : Nat
deriving Repr, DecidableEq

/-- The state of a freshly constructed crawler. -/
def initialState : CrawlerState :=
  { crawledUrls := [], failedUrls := [], pendingUrls := [],
    activeCrawls := 0, totalRequested := 0, totalCompleted := 0,
    totalFailed := 0, contentStore := [], fetchLog := [],
    crawlErrorEvents := [], scheduledChildren := 0 }

/-- The transient-error test of crawlUrl's catch block: substring
matching on the error message. -/
def isTransientMsg (msg : String) : Bool :=
  strIncludes msg "Protocol error" || strIncludes msg "Connection closed" ||
    strIncludes msg "Target closed"

/-- `this.pendingUrls.has(url)`. -/
def pendingHas (st : CrawlerState) (url : String) : Bool :=
  st.pendingUrls.any (fun p => p.1 = url)

/-- WebCrawlerAI.scheduleChildUrls: prioritize the links, keep the top
five, and enqueue each at the given depth unless its raw URL is
already crawled or pending. -/
def scheduleChildUrls (prioritize : List CLink → String → List CLink)
    (st : CrawlerState) (links : List CLink) (parentUrl : String)
    (depth : Nat) : CrawlerState :=
  let prioritizedLinks := prioritize links parentUrl
  let topLinks := prioritizedLinks.take (min 5 prioritizedLinks.length)
  topLinks.foldl (fun st link =>
    if st.crawledUrls.contains link.url ∨ pendingHas st link.url then st
    else
      { st with
        pendingUrls := st.pendingUrls ++
          [(link.url, { depth := depth, priority := link.priority,
                        parent := some parentUrl })],
        scheduledChildren := st.scheduledChildren + 1 }) st

/-- WebCrawlerAI.crawlUrl.  Returns the updated state and the crawled
document (null on rejection or failure).  The normalized URL enters
`crawledUrls` and the fetch log before the fetch; on failure it enters
`failedUrls` before the retry test, and the retry re-invokes crawlUrl
on the original url with retryCount+1 (the outer call's finally block
then decrements activeCrawls once more); the crawl-error event is
emitted only on the non-retrying branch. -/
def crawlUrl (w : World) (prioritize : List CLink → String → List CLink)
    (cfg : CrawlerConfig) (st : CrawlerState) (url : String) (depth : Nat)
    (priority : ℚ) (retryCount : Nat) : CrawlerState × Option CrawledDoc :=
  match UrlModel.normalize url with
  | none => (st, none)
  | some normalizedUrl =>
    if st.crawledUrls.contains normalizedUrl ∨
        st.failedUrls.contains normalizedUrl ∨ depth > cfg.maxDepth then
      (st, none)
    else
      let st := { st with
        activeCrawls := st.activeCrawls + 1,
        crawledUrls := st.crawledUrls ++ [normalizedUrl],
        totalRequested := st.totalRequested + 1,
        fetchLog := st.fetchLog ++ [normalizedUrl] }
      match w normalizedUrl with
      | .success page =>
        let doc : CrawledDoc :=
          { url := normalizedUrl, page := page, crawlDepth := depth,
            crawlPriority := priority }
        let st := { st with
          contentStore := SearchModel.setA st.contentStore normalizedUrl doc }
        let st :=
          if depth < cfg.maxDepth then
            scheduleChildUrls prioritize st page.links normalizedUrl (depth + 1)
          else st
        let st := { st with totalCompleted := st.totalCompleted + 1 }
        ({ st with activeCrawls := st.activeCrawls - 1 }, some doc)
      | .failure msg =>
        let st := { st with
          failedUrls := st.failedUrls ++ [normalizedUrl],
          totalFailed := st.totalFailed + 1 }
        if h : retryCount < 2 ∧ isTransientMsg msg then
          let st := { st with activeCrawls := st.activeCrawls - 1 }
          let r := crawlUrl w prioritize cfg st url depth priority (retryCount + 1)
          ({ r.1 with activeCrawls := r.1.activeCrawls - 1 }, r.2)
        else
          let st := { st with
            crawlErrorEvents := st.crawlErrorEvents ++ [normalizedUrl] }
          ({ st with activeCrawls := st.activeCrawls - 1 }, none)
termination_by 2 - retryCount
decreasing_by omega

/-- WebCrawlerAI.getNextUrl: the first frontier entry of maximal
priority (the stable descending sort of the source keeps insertion
order among ties and the head is taken). -/
def getNextUrl (st : CrawlerState) : Option (String × PendingMeta) :=
  match st.pendingUrls with
  | [] => none
  | e :: rest =>
    some (rest.foldl (fun best x =>
      if x.2.priority > best.2.priority then x else best) e)

/-- The crawlBatch while loop, driven by explicit fuel; the second
component is true when the loop exited normally (frontier drained)
within the given fuel.  Since crawlBatch awaits each crawlUrl, a
sleep iteration (no entry available) changes no state. -/
def crawlBatchLoop (w : World)
    (prioritize : List CLink → String → List CLink) (cfg : CrawlerConfig) :
    Nat → CrawlerState → CrawlerState × Bool
  | 0, st => (st, false)
  | fuel + 1, st =>
    if st.pendingUrls.length > 0 ∨ st.activeCrawls > 0 then
      match getNextUrl st with
      | some e =>
        let st := { st with
          pendingUrls := st.pendingUrls.filter (fun p => ¬ p.1 = e.1) }
        let r := crawlUrl w prioritize cfg st e.1 e.2.depth e.2.priority 0
        crawlBatchLoop w prioritize cfg fuel r.1
      | none => crawlBatchLoop w prioritize cfg fuel st
    else (st, true)

/-- WebCrawlerAI.crawlBatch: enqueue the normalized seed URLs at depth
0 with priority 10, then drain the frontier.  The options parameter is
received but never read by the source function — every limit comes
from the construction-time configuration. -/
def crawlBatch (w : World)
    (prioritize : List CLink → String → List CLink) (cfg : CrawlerConfig)
    (fuel : Nat) (st : CrawlerState) (urls : List String)
    (_options : CrawlOptions) : CrawlerState × Bool :=
  let st := urls.foldl (fun st url =>
    match UrlModel.normalize url with
    | some normalizedUrl =>
      if pendingHas st normalizedUrl then st
      else
        { st with pendingUrls := st.pendingUrls ++
            [(normalizedUrl, { depth := 0, priority := 10, parent := none })] }
    | none => st) st
  crawlBatchLoop w prioritize cfg fuel st

/-- The identity link analyzer used by the concrete runs below: it
keeps the extracted links and their priorities as given (a particular
instance of the `prioritize` collaborator). -/
def idPrioritize : List CLink → String → List CLink := fun l _ => l

/-- A fetch environment in which every fetch fails with an HTTP error
(a non-transient message). -/
def failWorld : World := fun _ => .failure "HTTP 500: Internal Server Error"

/-- A fetch environment in which every fetch fails with a transient
transport-level error message. -/
def transientWorld : World := fun _ => .failure "Protocol error: Connection closed."

/-- A fetch environment in which the seed page links to one child page
and every page fetch succeeds. -/
def cxWorld : World := fun u =>
  if u = "http://a.com/" then
    .success { links := [{ url := "http://a.com/page", priority := 5 }] }
  else .success { links := [] }

/-- The options object `{maxDepth: 0}`. -/
def cxOptions : CrawlOptions := { maxDepth := some 0 }

/-- The crawl-session invariant: the fetch log has no duplicates and
lists exactly the crawled set, every failed URL was first marked
crawled, a crawled URL is failed exactly when its fetch outcome is a
failure, the frontier has unique keys and only entries within the
depth limit. -/
def Inv (w : World) (cfg : CrawlerConfig) (st : CrawlerState) : Prop :=
  st.fetchLog.Nodup ∧
  (∀ x, x ∈ st.fetchLog ↔ x ∈ st.crawledUrls) ∧
  (∀ x ∈ st.failedUrls, x ∈ st.crawledUrls) ∧
  (∀ x ∈ st.crawledUrls, (x ∈ st.failedUrls ↔ (w x).isFailure = true)) ∧
  (st.pendingUrls.map Prod.fst).Nodup ∧
  (∀ e ∈ st.pendingUrls, e.2.depth ≤ cfg.maxDepth)

end Crawler


namespace SearchModel

theorem getA_setA_self {k v : Type} [DecidableEq k] (l : List (k × v)) (key : k) (val : v) :
    getA (setA l key val) key = some val := by
  induction l with
  | nil => simp [getA, setA]
  | cons h t ih =>
    obtain ⟨a, b⟩ := h
    by_cases hak : a = key
    · simp [getA, setA, hak]
    · simp [getA, setA, hak, ih]

theorem getA_setA_ne {k v : Type} [DecidableEq k] (l : List (k × v)) (key key' : k) (val : v)
    (h : key' ≠ key) : getA (setA l key val) key' = getA l key' := by
  induction l with
  | nil => simp [getA, setA, Ne.symm h]
  | cons hd t ih =>
    obtain ⟨a, b⟩ := hd
    by_cases hak : a = key
    · subst hak
      simp [getA, setA, Ne.symm h]
    · simp only [setA, if_neg hak, getA]
      by_cases hak' : a = key'
      · simp [hak']
      · simp [hak', ih]

theorem invDfStep_none (contentId term : String)
    (inv : List (String × List String)) (df : List (String × Nat))
    (h : getA inv term = none) :
    invDfStep contentId (inv, df) term =
      (setA (setA inv term []) term [contentId],
       setA (setA df term 0) term 1) := by
  simp [invDfStep, h, getA_setA_self]

theorem invDfStep_mem (contentId term : String)
    (inv : List (String × List String)) (df : List (String × Nat))
    (docs : List String) (h : getA inv term = some docs)
    (hc : contentId ∈ docs) :
    invDfStep contentId (inv, df) term = (inv, df) := by
  simp [invDfStep, h, hc]

theorem invDfStep_notMem (contentId term : String)
    (inv : List (String × List String)) (df : List (String × Nat))
    (docs : List String) (h : getA inv term = some docs)
    (hc : contentId ∉ docs) :
    invDfStep contentId (inv, df) term =
      (setA inv term (docs ++ [contentId]),
       setA df term (((getA df term).getD 0) + 1)) := by
  simp [invDfStep, h, hc]

end SearchModel

namespace SearchModel

theorem dfinv_step (contentId term : String)
    (inv : List (String × List String)) (df : List (String × Nat))
    (hinv : DFInv inv df) :
    DFInv (invDfStep contentId (inv, df) term).1
          (invDfStep contentId (inv, df) term).2 := by
  cases h : getA inv term with
  | none =>
    rw [invDfStep_none contentId term inv df h]
    intro t
    by_cases ht : t = term
    · subst ht
      rw [getA_setA_self, getA_setA_self]
      simp
    · rw [getA_setA_ne _ _ _ _ ht, getA_setA_ne _ _ _ _ ht,
          getA_setA_ne _ _ _ _ ht, getA_setA_ne _ _ _ _ ht]
      exact hinv t
  | some docs =>
    by_cases hc : contentId ∈ docs
    · rw [invDfStep_mem contentId term inv df docs h hc]
      exact hinv
    · rw [invDfStep_notMem contentId term inv df docs h hc]
      intro t
      by_cases ht : t = term
      · subst ht
        have h1 := (hinv t).1
        have h2 := (hinv t).2
        rw [h] at h1 h2
        simp only [Option.getD_some] at h1 h2
        rw [getA_setA_self, getA_setA_self]
        constructor
        · simp only [Option.getD_some]
          simp [List.nodup_append, h1, hc]
        · simp [h2, h]
      · rw [getA_setA_ne _ _ _ _ ht, getA_setA_ne _ _ _ _ ht]
        exact hinv t

theorem dfinv_foldl (contentId : String) (terms : List String)
    (inv : List (String × List String)) (df : List (String × Nat))
    (hinv : DFInv inv df) :
    DFInv (terms.foldl (invDfStep contentId) (inv, df)).1
          (terms.foldl (invDfStep contentId) (inv, df)).2 := by
  induction terms generalizing inv df with
  | nil => exact hinv
  | cons a t ih =>
    rw [List.foldl_cons]
    have h1 := dfinv_step contentId a inv df hinv
    have : invDfStep contentId (inv, df) a =
        ((invDfStep contentId (inv, df) a).1, (invDfStep contentId (inv, df) a).2) := rfl
    rw [this]
    exact ih _ _ h1

theorem dfinv_indexContent (tok : String → List String) (st : SearchState)
    (contentId : String) (content : SContent)
    (hinv : DFInv st.invertedIndex st.documentFrequency) :
    DFInv (indexContent tok st contentId content).invertedIndex
          (indexContent tok st contentId content).documentFrequency := by
  have := dfinv_foldl contentId
    (([("title", content.title),
       ("description", content.description),
       ("headings", joinSp content.headings),
       ("content", joinSp content.paragraphs),
       ("keywords", joinSp content.keywords),
       ("topics", joinSp content.topics)].map
        (fun p => (p.1, tok p.2))).foldl (fun acc p => p.2.foldl addToSet acc) [])
    st.invertedIndex st.documentFrequency hinv
  simpa [indexContent] using this

theorem dfinv_runIndex (tok : String → List String)
    (calls : List (String × SContent)) :
    DFInv (runIndex tok calls).invertedIndex
          (runIndex tok calls).documentFrequency := by
  suffices h : ∀ st, DFInv st.invertedIndex st.documentFrequency →
      DFInv (calls.foldl (fun st c => indexContent tok st c.1 c.2) st).invertedIndex
            (calls.foldl (fun st c => indexContent tok st c.1 c.2) st).documentFrequency by
    apply h
    intro t
    simp [emptySearchState, getA]
  induction calls with
  | nil => intro st h; exact h
  | cons c ct ih =>
    intro st h
    rw [List.foldl_cons]
    exact ih _ (dfinv_indexContent tok st c.1 c.2 h)

theorem totalDocuments_indexContent (tok : String → List String) (st : SearchState)
    (contentId : String) (content : SContent) :
    (indexContent tok st contentId content).totalDocuments = st.totalDocuments + 1 := rfl

theorem totalDocuments_runIndex (tok : String → List String)
    (calls : List (String × SContent)) :
    (runIndex tok calls).totalDocuments = calls.length := by
  suffices h : ∀ st, (calls.foldl (fun st c => indexContent tok st c.1 c.2) st).totalDocuments =
      st.totalDocuments + calls.length by
    simpa [emptySearchState] using h emptySearchState
  induction calls with
  | nil => intro st; simp
  | cons c ct ih =>
    intro st
    rw [List.foldl_cons]
    have h1 := ih (indexContent tok st c.1 c.2)
    rw [h1, totalDocuments_indexContent]
    simp [List.length_cons]
    omega

theorem importIndex_exportIndex (st : SearchState) :
    importIndex (exportIndex st) = st := by
  cases st
  simp [importIndex, exportIndex]

end SearchModel

namespace UrlModel

theorem char_toNat_ofNat (n : ℕ) (h : n.isValidChar) : (Char.ofNat n).toNat = n := by
  simp only [Char.ofNat, dif_pos h, Char.ofNatAux, Char.toNat]
  show (UInt32.mk (BitVec.ofNatLt n _)).toNat = n
  simp [UInt32.toNat, BitVec.toNat_ofNatLt]

theorem char_eq_of_toNat_eq {c d : Char} (h : c.toNat = d.toNat) : c = d := by
  have := congrArg Char.ofNat h
  rwa [Char.ofNat_toNat, Char.ofNat_toNat] at this

theorem toLower_eq_ite (c : Char) :
    Char.toLower c = if c.toNat ≥ 65 ∧ c.toNat ≤ 90 then Char.ofNat (c.toNat + 32) else c := rfl

theorem toLower_of_up {c : Char} (h1 : 65 ≤ c.toNat) (h2 : c.toNat ≤ 90) :
    (Char.toLower c).toNat = c.toNat + 32 := by
  have hv : (c.toNat + 32).isValidChar := by
    left
    omega
  rw [toLower_eq_ite, if_pos ⟨h1, h2⟩]
  exact char_toNat_ofNat _ hv

theorem toLower_of_not_up {c : Char} (h : ¬ (65 ≤ c.toNat ∧ c.toNat ≤ 90)) :
    Char.toLower c = c := by
  rw [toLower_eq_ite, if_neg h]

theorem toLower_toLower (c : Char) :
    Char.toLower (Char.toLower c) = Char.toLower c := by
  by_cases h : 65 ≤ c.toNat ∧ c.toNat ≤ 90
  · have h1 := toLower_of_up h.1 h.2
    have h2 : ¬ (65 ≤ (Char.toLower c).toNat ∧ (Char.toLower c).toNat ≤ 90) := by
      rw [h1]
      omega
    exact toLower_of_not_up h2
  · rw [toLower_of_not_up h, toLower_of_not_up h]

theorem toLower_eq_low {c d : Char} (hd : d.toNat < 65) :
    Char.toLower c = d ↔ c = d := by
  constructor
  · intro h
    by_cases hu : 65 ≤ c.toNat ∧ c.toNat ≤ 90
    · exfalso
      have h1 := toLower_of_up hu.1 hu.2
      rw [h] at h1
      omega
    · rwa [toLower_of_not_up hu] at h
  · intro h
    subst h
    exact toLower_of_not_up (by omega)

theorem lowerChars_lowerChars (l : List Char) :
    lowerChars (lowerChars l) = lowerChars l := by
  simp only [lowerChars, List.map_map]
  exact List.map_congr_left (fun c _ => toLower_toLower c)

theorem lowerChars_append (a b : List Char) :
    lowerChars (a ++ b) = lowerChars a ++ lowerChars b := by
  simp [lowerChars]

theorem lowerChars_cons (c : Char) (l : List Char) :
    lowerChars (c :: l) = Char.toLower c :: lowerChars l := rfl

theorem lowerChars_nil : lowerChars [] = [] := rfl

theorem lowerChars_length (l : List Char) :
    (lowerChars l).length = l.length := by simp [lowerChars]

theorem mem_lowerChars {d : Char} (hd : d.toNat < 65) (l : List Char) :
    d ∈ lowerChars l ↔ d ∈ l := by
  simp only [lowerChars, List.mem_map]
  constructor
  · rintro ⟨c, hc, he⟩
    rwa [(toLower_eq_low hd).mp he] at hc
  · intro h
    exact ⟨d, h, (toLower_eq_low hd).mpr rfl⟩

theorem lowerChars_fixed {l : List Char} (h : ∀ c ∈ l, ¬ (65 ≤ c.toNat ∧ c.toNat ≤ 90)) :
    lowerChars l = l := by
  simp only [lowerChars]
  rw [List.map_congr_left (fun c hc => toLower_of_not_up (h c hc))]
  exact List.map_id l

end UrlModel

namespace UrlModel

theorem splitFirst_not_mem_fst (c : Char) (l : List Char) :
    c ∉ (splitFirst c l).1 := by
  induction l with
  | nil => simp [splitFirst]
  | cons x xs ih =>
    by_cases hx : x = c
    · simp [splitFirst, hx]
    · simp only [splitFirst, if_neg hx]
      intro hmem
      rcases List.mem_cons.mp hmem with h | h
      · exact hx h.symm
      · exact ih h

theorem splitFirst_of_not_mem {c : Char} {l : List Char} (h : c ∉ l) :
    splitFirst c l = (l, none) := by
  induction l with
  | nil => rfl
  | cons x xs ih =>
    have hx : x ≠ c := fun he => h (he ▸ List.mem_cons_self x xs)
    have hxs : c ∉ xs := fun hm => h (List.mem_cons_of_mem x hm)
    simp [splitFirst, hx, ih hxs]

theorem splitFirst_append {c : Char} {a : List Char} (b : List Char) (h : c ∉ a) :
    splitFirst c (a ++ c :: b) = (a, some b) := by
  induction a with
  | nil => simp [splitFirst]
  | cons x xs ih =>
    have hx : x ≠ c := fun he => h (he ▸ List.mem_cons_self x xs)
    have hxs : c ∉ xs := fun hm => h (List.mem_cons_of_mem x hm)
    simp [splitFirst, hx, ih hxs]

theorem splitFirst_recombine (c : Char) (l : List Char) :
    (splitFirst c l).2 = none ∧ l = (splitFirst c l).1 ∨
    ∃ b, (splitFirst c l).2 = some b ∧ l = (splitFirst c l).1 ++ c :: b := by
  induction l with
  | nil => simp [splitFirst]
  | cons x xs ih =>
    by_cases hx : x = c
    · subst hx
      right
      exact ⟨xs, by simp [splitFirst]⟩
    · simp only [splitFirst, if_neg hx]
      rcases ih with ⟨h1, h2⟩ | ⟨b, h1, h2⟩
      · left
        constructor
        · simpa using h1
        · simp only [List.cons_inj_right]
          exact h2
      · right
        refine ⟨b, by simpa using h1, ?_⟩
        simp only [List.cons_append, List.cons_inj_right]
        exact h2

theorem isPrefixList_append_self (a b : List Char) :
    isPrefixList a (a ++ b) = true := by
  induction a with
  | nil => rfl
  | cons x xs ih => simp [isPrefixList, ih]

theorem joinWith_no_sep_pieces {c : Char} {segs : List (List Char)}
    (hs : ∀ s ∈ segs, c ∉ s) (hne : segs ≠ []) :
    splitEvery c (joinWith c segs) = segs := by
  induction segs with
  | nil => exact absurd rfl hne
  | cons s rest ih =>
    cases rest with
    | nil =>
      show splitEvery c s = [s]
      have hcs : c ∉ s := hs s (List.mem_cons_self _ _)
      clear ih hne hs
      induction s with
      | nil => rfl
      | cons x xs ihs =>
        have hx : x ≠ c := fun he => hcs (he ▸ List.mem_cons_self x xs)
        have hxs : c ∉ xs := fun hm => hcs (List.mem_cons_of_mem x hm)
        have hrec := ihs hxs
        simp [splitEvery, hx, hrec]
    | cons s2 rest2 =>
      have hjoin : joinWith c (s :: s2 :: rest2) = s ++ c :: joinWith c (s2 :: rest2) := rfl
      rw [hjoin]
      have hrest : splitEvery c (joinWith c (s2 :: rest2)) = s2 :: rest2 :=
        ih (fun t ht => hs t (List.mem_cons_of_mem s ht)) (by simp)
      have hcs : c ∉ s := hs s (List.mem_cons_self _ _)
      clear ih hne hs hjoin
      induction s with
      | nil => simp [splitEvery, hrest]
      | cons x xs ihs =>
        have hx : x ≠ c := fun he => hcs (he ▸ List.mem_cons_self x xs)
        have hxs : c ∉ xs := fun hm => hcs (List.mem_cons_of_mem x hm)
        have hrec := ihs hxs
        simp only [List.cons_append, splitEvery, if_neg hx] at hrec ⊢
        simp only [List.append_eq] at hrec ⊢
        rw [hrec]

end UrlModel

namespace UrlModel

theorem ltName_irrefl (a : List Char) : ltName a a = false := by
  induction a with
  | nil => rfl
  | cons x xs ih => simp [ltName, ih]

theorem ltName_asymm {a b : List Char} (h : ltName a b = true) :
    ltName b a = false := by
  induction a generalizing b with
  | nil =>
    cases b with
    | nil => simp [ltName] at h
    | cons y ys => rfl
  | cons x xs ih =>
    cases b with
    | nil => simp [ltName] at h
    | cons y ys =>
      simp only [ltName] at h ⊢
      rcases Nat.lt_trichotomy x.toNat y.toNat with hlt | heq | hgt
      · simp [Nat.not_lt.mpr (Nat.le_of_lt hlt), Nat.lt_irrefl]
        omega
      · have hxy : x = y := char_eq_of_toNat_eq heq
        subst hxy
        simp only [Nat.lt_irrefl, if_false] at h ⊢
        exact ih h
      · simp [hgt, Nat.not_lt.mpr (Nat.le_of_lt hgt)] at h

theorem ltName_trichotomy (a b : List Char) :
    ltName a b = true ∨ a = b ∨ ltName b a = true := by
  induction a generalizing b with
  | nil =>
    cases b with
    | nil => right; left; rfl
    | cons y ys => left; rfl
  | cons x xs ih =>
    cases b with
    | nil => right; right; rfl
    | cons y ys =>
      rcases Nat.lt_trichotomy x.toNat y.toNat with hlt | heq | hgt
      · left
        simp [ltName, hlt]
      · have hxy : x = y := char_eq_of_toNat_eq heq
        subst hxy
        rcases ih ys with h | h | h
        · left
          simp [ltName, h]
        · right; left
          rw [h]
        · right; right
          simp [ltName, h]
      · right; right
        simp [ltName, hgt]

theorem ltName_trans {a b c : List Char} (h1 : ltName a b = true)
    (h2 : ltName b c = true) : ltName a c = true := by
  induction a generalizing b c with
  | nil =>
    cases c with
    | nil =>
      cases b with
      | nil => exact h1
      | cons y ys => simp [ltName] at h2
    | cons z zs => rfl
  | cons x xs ih =>
    cases b with
    | nil => simp [ltName] at h1
    | cons y ys =>
      cases c with
      | nil => simp [ltName] at h2
      | cons z zs =>
        simp only [ltName] at h1 h2 ⊢
        rcases Nat.lt_trichotomy x.toNat y.toNat with hxy | hxy | hxy
        · rcases Nat.lt_trichotomy y.toNat z.toNat with hyz | hyz | hyz
          · simp [Nat.lt_trans hxy hyz]
          · have he : y = z := char_eq_of_toNat_eq hyz
            subst he
            simp [hxy]
          · simp [Nat.not_lt.mpr (Nat.le_of_lt hyz), Nat.lt_irrefl] at h2
            omega
        · have he : x = y := char_eq_of_toNat_eq hxy
          subst he
          simp only [Nat.lt_irrefl, if_false] at h1
          rcases Nat.lt_trichotomy x.toNat z.toNat with hxz | hxz | hxz
          · simp [hxz]
          · have he2 : x = z := char_eq_of_toNat_eq hxz
            subst he2
            simp only [Nat.lt_irrefl, if_false]
            rcases Nat.lt_trichotomy x.toNat x.toNat with hh | hh | hh
            · exact absurd hh (Nat.lt_irrefl _)
            · simp only [Nat.lt_irrefl, if_false] at h2
              exact ih h1 h2
            · exact absurd hh (Nat.lt_irrefl _)
          · simp [Nat.not_lt.mpr (Nat.le_of_lt hxz), Nat.lt_irrefl] at h2
            omega
        · simp [Nat.not_lt.mpr (Nat.le_of_lt hxy), Nat.lt_irrefl] at h1
          omega

end UrlModel

section SortLemmas

variable {α : Type} (before : α → α → Bool)

theorem mem_insertBy (x : α) (l : List α) (z : α) :
    z ∈ insertBy before x l ↔ z = x ∨ z ∈ l := by
  induction l with
  | nil => simp [insertBy]
  | cons y ys ih =>
    by_cases hb : before x y
    · simp only [insertBy, if_pos hb, List.mem_cons]
    · simp only [insertBy, if_neg hb, List.mem_cons, ih]
      tauto

theorem mem_sortByStable (l : List α) (z : α) :
    z ∈ sortByStable before l ↔ z ∈ l := by
  suffices h : ∀ acc, z ∈ l.foldl (fun acc x => insertBy before x acc) acc ↔
      z ∈ acc ∨ z ∈ l by
    simpa [sortByStable] using h []
  induction l with
  | nil => simp
  | cons y ys ih =>
    intro acc
    rw [List.foldl_cons, ih, mem_insertBy]
    simp only [List.mem_cons]
    tauto

theorem pairwise_insertBy
    (hasym : ∀ a b, before a b = true → before b a = false)
    (hntrans : ∀ a b c, before b a = false → before c b = false →
      before c a = false)
    (x : α) (l : List α)
    (h : l.Pairwise (fun a b => before b a = false)) :
    (insertBy before x l).Pairwise (fun a b => before b a = false) := by
  induction l with
  | nil => simp [insertBy]
  | cons y ys ih =>
    rcases List.pairwise_cons.mp h with ⟨hy, hys⟩
    by_cases hb : before x y
    · simp only [insertBy, if_pos hb]
      refine List.pairwise_cons.mpr ⟨?_, h⟩
      intro z hz
      rcases List.mem_cons.mp hz with hzy | hzys
      · subst hzy
        exact hasym x z hb
      · exact hntrans x y z (hasym x y hb) (hy z hzys)
    · simp only [insertBy, if_neg hb]
      refine List.pairwise_cons.mpr ⟨?_, ih hys⟩
      intro z hz
      rcases (mem_insertBy before x ys z).mp hz with hzx | hzys
      · subst hzx
        exact (Bool.not_eq_true _).mp hb
      · exact hy z hzys

theorem pairwise_sortByStable
    (hasym : ∀ a b, before a b = true → before b a = false)
    (hntrans : ∀ a b c, before b a = false → before c b = false →
      before c a = false)
    (l : List α) :
    (sortByStable before l).Pairwise (fun a b => before b a = false) := by
  suffices h : ∀ acc, acc.Pairwise (fun a b => before b a = false) →
      (l.foldl (fun acc x => insertBy before x acc) acc).Pairwise
        (fun a b => before b a = false) by
    exact h [] (by simp)
  induction l with
  | nil => intro acc hacc; exact hacc
  | cons y ys ih =>
    intro acc hacc
    rw [List.foldl_cons]
    exact ih _ (pairwise_insertBy before hasym hntrans y acc hacc)

theorem insertBy_eq_append (x : α) (l : List α)
    (h : ∀ z ∈ l, before x z = false) :
    insertBy before x l = l ++ [x] := by
  induction l with
  | nil => rfl
  | cons y ys ih =>
    have hy : before x y = false := h y (List.mem_cons_self _ _)
    simp only [insertBy, hy, Bool.false_eq_true, if_false, List.cons_append,
      List.cons_inj_right]
    exact ih (fun z hz => h z (List.mem_cons_of_mem y hz))

theorem sortByStable_eq_of_pairwise (l : List α)
    (h : l.Pairwise (fun a b => before b a = false)) :
    sortByStable before l = l := by
  suffices hgen : ∀ acc, (∀ z ∈ acc, ∀ y ∈ l, before y z = false) →
      l.foldl (fun acc x => insertBy before x acc) acc = acc ++ l by
    simpa [sortByStable] using hgen [] (by simp)
  induction l with
  | nil => intro acc _; simp
  | cons y ys ih =>
    rcases List.pairwise_cons.mp h with ⟨hy, hys⟩
    intro acc hacc
    rw [List.foldl_cons]
    have hins : insertBy before y acc = acc ++ [y] :=
      insertBy_eq_append before y acc
        (fun z hz => hacc z hz y (List.mem_cons_self _ _))
    rw [hins, ih hys]
    · simp
    · intro z hz y2 hy2
      rcases List.mem_append.mp hz with hza | hzy
      · exact hacc z hza y2 (List.mem_cons_of_mem y hy2)
      · rw [List.mem_singleton.mp hzy]
        exact hy y2 hy2

end SortLemmas

namespace UrlModel

theorem http_toList : "http://".toList = ['h', 't', 't', 'p', ':', '/', '/'] := rfl

theorem https_toList : "https://".toList = ['h', 't', 't', 'p', 's', ':', '/', '/'] := rfl

theorem isPrefixList_http_https (r : List Char) :
    isPrefixList "http://".toList ("https://".toList ++ r) = false := by
  simp [isPrefixList, http_toList, https_toList]

theorem drop7_http (r : List Char) : ("http://".toList ++ r).drop 7 = r := rfl

theorem drop8_https (r : List Char) : ("https://".toList ++ r).drop 8 = r := rfl

theorem not_mem_http {c : Char} (h1 : c ≠ 'h') (h2 : c ≠ 't') (h3 : c ≠ 'p')
    (h4 : c ≠ ':') (h5 : c ≠ '/') : c ∉ "http://".toList := by
  rw [http_toList]
  simp [h1, h2, h3, h4, h5]

theorem not_mem_https {c : Char} (h1 : c ≠ 'h') (h2 : c ≠ 't') (h3 : c ≠ 'p')
    (h4 : c ≠ ':') (h5 : c ≠ '/') (h6 : c ≠ 's') : c ∉ "https://".toList := by
  rw [https_toList]
  simp [h1, h2, h3, h4, h5, h6]

end UrlModel

namespace UrlModel

theorem mem_joinWith {c : Char} {segs : List (List Char)} {x : Char}
    (h : x ∈ joinWith c segs) : x = c ∨ ∃ s ∈ segs, x ∈ s := by
  induction segs with
  | nil => simp [joinWith] at h
  | cons s rest ih =>
    cases rest with
    | nil =>
      right
      exact ⟨s, List.mem_cons_self _ _, h⟩
    | cons s2 rest2 =>
      have hj : joinWith c (s :: s2 :: rest2) = s ++ c :: joinWith c (s2 :: rest2) := rfl
      rw [hj] at h
      rcases List.mem_append.mp h with hs | hrest
      · right
        exact ⟨s, List.mem_cons_self _ _, hs⟩
      · rcases List.mem_cons.mp hrest with hc | hjoin
        · left
          exact hc
        · rcases ih hjoin with hc | ⟨t, ht, hx⟩
          · left
            exact hc
          · right
            exact ⟨t, List.mem_cons_of_mem s ht, hx⟩

theorem parseSegment_mk (n val : List Char) (h : '=' ∉ n) :
    parseSegment (n ++ '=' :: val) = (n, val) := by
  simp [parseSegment, splitFirst_append val h]

theorem parseQuery_joinWith (params : List (List Char × List Char))
    (hne : params ≠ [])
    (hp : ∀ pr ∈ params, ('&' ∉ pr.1 ∧ '=' ∉ pr.1) ∧ '&' ∉ pr.2) :
    parseQuery (joinWith '&' (params.map (fun p => p.1 ++ '=' :: p.2))) = params := by
  unfold parseQuery
  have hsegs : ∀ s ∈ params.map (fun p => p.1 ++ '=' :: p.2), '&' ∉ s := by
    intro s hs
    rcases List.mem_map.mp hs with ⟨pr, hpr, he⟩
    subst he
    intro hmem
    rcases List.mem_append.mp hmem with h1 | h2
    · exact (hp pr hpr).1.1 h1
    · rcases List.mem_cons.mp h2 with h3 | h4
      · exact absurd h3.symm (by decide)
      · exact (hp pr hpr).2 h4
  rw [joinWith_no_sep_pieces hsegs (by simpa using hne)]
  have hfilter : (params.map (fun p => p.1 ++ '=' :: p.2)).filter (· ≠ []) =
      params.map (fun p => p.1 ++ '=' :: p.2) := by
    apply List.filter_eq_self.mpr
    intro s hs
    rcases List.mem_map.mp hs with ⟨pr, _, he⟩
    subst he
    simp
  rw [hfilter, List.map_map]
  conv_rhs => rw [← List.map_id params]
  apply List.map_congr_left
  intro pr hpr
  show parseSegment (pr.1 ++ '=' :: pr.2) = pr
  rw [parseSegment_mk pr.1 pr.2 (hp pr hpr).1.2]

end UrlModel

namespace UrlModel

theorem parseHostRest_mk (secure : Bool) (host path : List Char)
    (params : List (List Char × List Char)) (frag : List Char)
    (hne : host ≠ []) (hlow : lowerChars host = host) (hslash : '/' ∉ host)
    (hshape : path = [] ∨ ∃ p, path = '/' :: p) :
    parseHostRest secure (host ++ path) params frag =
      some ⟨secure, host, path, params, frag⟩ := by
  rcases hshape with hp | ⟨p, hp⟩
  · subst hp
    rw [List.append_nil]
    unfold parseHostRest
    rw [splitFirst_of_not_mem hslash]
    simp [hne, hlow]
  · subst hp
    unfold parseHostRest
    rw [splitFirst_append p hslash]
    simp [hne, hlow]

end UrlModel

namespace UrlModel

theorem parse_serialize (v : UrlRecord)
    (hhost_ne : v.host ≠ [])
    (hhost_low : lowerChars v.host = v.host)
    (hhost : ∀ c ∈ v.host, c ≠ '/' ∧ c ≠ '?' ∧ c ≠ '#')
    (hpath_shape : v.path = [] ∨ ∃ p, v.path = '/' :: p)
    (hpath : ∀ c ∈ v.path, c ≠ '?' ∧ c ≠ '#')
    (hparams : ∀ pr ∈ v.params,
      ('&' ∉ pr.1 ∧ '=' ∉ pr.1 ∧ '#' ∉ pr.1) ∧ ('&' ∉ pr.2 ∧ '#' ∉ pr.2))
    (hfrag : v.frag = []) :
    parseUrl (serializeUrl v) = some v := by
  obtain ⟨secure, host, path, params, frag⟩ := v
  simp only at hhost_ne hhost_low hhost hpath_shape hpath hparams hfrag
  subst hfrag
  -- the serialized form, fragment part empty
  have hser : serializeUrl ⟨secure, host, path, params, []⟩ =
      (if secure then "https://".toList else "http://".toList) ++ host ++ path ++
        (if params = [] then []
         else '?' :: joinWith '&' (params.map (fun p => p.1 ++ '=' :: p.2))) := by
    simp [serializeUrl]
  rw [hser]
  -- no '#' anywhere in the serialized string
  have hscheme_hash : '#' ∉ (if secure then "https://".toList else "http://".toList) := by
    cases secure
    · simp only [Bool.false_eq_true, if_false]
      exact not_mem_http (by decide) (by decide) (by decide) (by decide) (by decide)
    · simp only [if_true]
      exact not_mem_https (by decide) (by decide) (by decide) (by decide) (by decide) (by decide)
  have hq_hash : '#' ∉ (if params = [] then []
      else '?' :: joinWith '&' (params.map (fun p => p.1 ++ '=' :: p.2))) := by
    by_cases hps : params = []
    · simp [hps]
    · rw [if_neg hps]
      intro hmem
      rcases List.mem_cons.mp hmem with h1 | h2
      · exact absurd h1 (by decide)
      · rcases mem_joinWith h2 with h3 | ⟨s, hs, hx⟩
        · exact absurd h3 (by decide)
        · rcases List.mem_map.mp hs with ⟨pr, hpr, he⟩
          subst he
          rcases List.mem_append.mp hx with h4 | h5
          · exact (hparams pr hpr).1.2.2 h4
          · rcases List.mem_cons.mp h5 with h6 | h7
            · exact absurd h6 (by decide)
            · exact (hparams pr hpr).2.2 h7
  have hhash : '#' ∉ (if secure then "https://".toList else "http://".toList) ++ host ++ path ++
      (if params = [] then []
       else '?' :: joinWith '&' (params.map (fun p => p.1 ++ '=' :: p.2))) := by
    intro hmem
    rcases List.mem_append.mp hmem with h1 | h2
    · rcases List.mem_append.mp h1 with h3 | h4
      · rcases List.mem_append.mp h3 with h5 | h6
        · exact hscheme_hash h5
        · exact (hhost _ h6).2.2 rfl
      · exact (hpath _ h4).2 rfl
    · exact hq_hash h2
  -- no '?' in scheme, host, path
  have hnq : '?' ∉ (if secure then "https://".toList else "http://".toList) ++ host ++ path := by
    intro hmem
    rcases List.mem_append.mp hmem with h1 | h2
    · rcases List.mem_append.mp h1 with h3 | h4
      · revert h3
        cases secure
        · simp only [Bool.false_eq_true, if_false]
          exact not_mem_http (by decide) (by decide) (by decide) (by decide) (by decide)
        · simp only [if_true]
          exact not_mem_https (by decide) (by decide) (by decide) (by decide) (by decide) (by decide)
      · exact (hhost _ h4).2.1 rfl
    · exact (hpath _ h2).1 rfl
  -- parse: the fragment split is trivial
  simp only [parseUrl]
  rw [splitFirst_of_not_mem hhash]
  by_cases hps : params = []
  · subst hps
    have hQ : (if ([] : List (List Char × List Char)) = [] then ([] : List Char)
        else '?' :: joinWith '&'
          (([] : List (List Char × List Char)).map (fun p => p.1 ++ '=' :: p.2))) = [] := rfl
    rw [hQ, List.append_nil]
    rw [splitFirst_of_not_mem hnq]
    cases secure
    · simp only [Bool.false_eq_true, if_false]
      rw [List.append_assoc "http://".toList host path]
      rw [isPrefixList_append_self]
      simp only [eq_self_iff_true, if_true, drop7_http]
      exact parseHostRest_mk false host path _ _ hhost_ne hhost_low
        (fun hm => (hhost _ hm).1 rfl) hpath_shape
    · simp only [if_true]
      rw [List.append_assoc "https://".toList host path]
      simp only [isPrefixList_http_https, Bool.false_eq_true, if_false,
        isPrefixList_append_self, eq_self_iff_true, if_true, drop8_https]
      exact parseHostRest_mk true host path _ _ hhost_ne hhost_low
        (fun hm => (hhost _ hm).1 rfl) hpath_shape
  · rw [if_neg hps]
    have hassoc : (if secure then "https://".toList else "http://".toList) ++ host ++ path ++
        ('?' :: joinWith '&' (params.map (fun p => p.1 ++ '=' :: p.2))) =
        ((if secure then "https://".toList else "http://".toList) ++ host ++ path) ++
        '?' :: joinWith '&' (params.map (fun p => p.1 ++ '=' :: p.2)) := by
      simp [List.append_assoc]
    rw [hassoc, splitFirst_append _ hnq]
    have hpq : parseQuery (Option.getD
        (some (joinWith '&' (params.map (fun p => p.1 ++ '=' :: p.2)))) []) = params := by
      rw [Option.getD_some]
      exact parseQuery_joinWith params hps
        (fun pr hpr => ⟨⟨(hparams pr hpr).1.1, (hparams pr hpr).1.2.1⟩, (hparams pr hpr).2.1⟩)
    rw [hpq]
    cases secure
    · simp only [Bool.false_eq_true, if_false]
      rw [List.append_assoc "http://".toList host path]
      rw [isPrefixList_append_self]
      simp only [eq_self_iff_true, if_true, drop7_http]
      exact parseHostRest_mk false host path _ _ hhost_ne hhost_low
        (fun hm => (hhost _ hm).1 rfl) hpath_shape
    · simp only [if_true]
      rw [List.append_assoc "https://".toList host path]
      simp only [isPrefixList_http_https, Bool.false_eq_true, if_false,
        isPrefixList_append_self, eq_self_iff_true, if_true, drop8_https]
      exact parseHostRest_mk true host path _ _ hhost_ne hhost_low
        (fun hm => (hhost _ hm).1 rfl) hpath_shape

end UrlModel

namespace UrlModel

theorem lowerChars_joinWith {c : Char} (hc : Char.toLower c = c)
    (segs : List (List Char)) :
    lowerChars (joinWith c segs) = joinWith c (segs.map lowerChars) := by
  induction segs with
  | nil => rfl
  | cons s rest ih =>
    cases rest with
    | nil => rfl
    | cons s2 rest2 =>
      have h1 : joinWith c (s :: s2 :: rest2) = s ++ c :: joinWith c (s2 :: rest2) := rfl
      have h2 : joinWith c (lowerChars s :: lowerChars s2 :: rest2.map lowerChars) =
          lowerChars s ++ c :: joinWith c (lowerChars s2 :: rest2.map lowerChars) := rfl
      rw [h1, lowerChars_append, lowerChars_cons, hc]
      simp only [List.map_cons] at ih ⊢
      rw [h2, ih]

theorem serializeUrl_lowerRecord (v : UrlRecord) :
    serializeUrl (lowerRecord v) = lowerChars (serializeUrl v) := by
  obtain ⟨secure, host, path, params, frag⟩ := v
  simp only [serializeUrl, lowerRecord, lowerChars_append]
  have hscheme : lowerChars (if secure then "https://".toList else "http://".toList) =
      (if secure then "https://".toList else "http://".toList) := by
    cases secure
    · simp only [Bool.false_eq_true, if_false]
      decide
    · simp only [if_true]
      decide
  rw [hscheme]
  have hq : (if params.map (fun p => (lowerChars p.1, lowerChars p.2)) = [] then []
      else '?' :: joinWith '&'
        ((params.map (fun p => (lowerChars p.1, lowerChars p.2))).map
          (fun p => p.1 ++ '=' :: p.2))) =
      lowerChars (if params = [] then []
        else '?' :: joinWith '&' (params.map (fun p => p.1 ++ '=' :: p.2))) := by
    by_cases hps : params = []
    · subst hps
      rfl
    · rw [if_neg hps, if_neg (by simpa using hps)]
      rw [lowerChars_cons]
      have hqm : Char.toLower '?' = '?' := by decide
      rw [hqm, lowerChars_joinWith (by decide)]
      simp only [List.map_map]
      congr 1
      congr 1
      apply List.map_congr_left
      intro pr _
      show lowerChars pr.1 ++ '=' :: lowerChars pr.2 = lowerChars (pr.1 ++ '=' :: pr.2)
      rw [lowerChars_append, lowerChars_cons]
      have : Char.toLower '=' = '=' := by decide
      rw [this]
  have hf : (if lowerChars frag = [] then [] else '#' :: lowerChars frag) =
      lowerChars (if frag = [] then [] else '#' :: frag) := by
    by_cases hfr : frag = []
    · subst hfr
      rfl
    · rw [if_neg hfr, if_neg (by simpa [lowerChars] using hfr)]
      rw [lowerChars_cons]
      have : Char.toLower '#' = '#' := by decide
      rw [this]
  rw [hq, hf]

end UrlModel

namespace UrlModel

theorem mem_splitFirst_fst {c : Char} {l : List Char} {x : Char}
    (h : x ∈ (splitFirst c l).1) : x ∈ l := by
  rcases splitFirst_recombine c l with ⟨_, h2⟩ | ⟨b, _, h2⟩
  · rw [h2]
    exact h
  · rw [h2]
    exact List.mem_append.mpr (Or.inl h)

theorem mem_splitFirst_snd {c : Char} {l b : List Char} {x : Char}
    (hb : (splitFirst c l).2 = some b) (h : x ∈ b) : x ∈ l := by
  rcases splitFirst_recombine c l with ⟨h1, _⟩ | ⟨b2, h1, h2⟩
  · rw [h1] at hb
    exact absurd hb (by simp)
  · rw [h1] at hb
    injection hb with hb2
    subst hb2
    rw [h2]
    exact List.mem_append.mpr (Or.inr (List.mem_cons_of_mem _ h))

theorem mem_splitEvery_no_sep {c : Char} {l : List Char} {s : List Char}
    (h : s ∈ splitEvery c l) : c ∉ s := by
  induction l generalizing s with
  | nil =>
    simp only [splitEvery, List.mem_singleton] at h
    subst h
    simp
  | cons x xs ih =>
    simp only [splitEvery] at h
    by_cases hx : x = c
    · rw [if_pos hx] at h
      rcases List.mem_cons.mp h with h1 | h2
      · subst h1
        simp
      · exact ih h2
    · rw [if_neg hx] at h
      cases he : splitEvery c xs with
      | nil =>
        rw [he] at h
        simp only [List.mem_singleton] at h
        subst h
        intro hm
        rcases List.mem_cons.mp hm with h1 | h2
        · exact hx h1.symm
        · simp at h2
      | cons hd tl =>
        rw [he] at h
        rcases List.mem_cons.mp h with h1 | h2
        · subst h1
          intro hm
          rcases List.mem_cons.mp hm with h1 | h2
          · exact hx h1.symm
          · exact ih (he ▸ List.mem_cons_self hd tl) h2
        · exact ih (he ▸ List.mem_cons_of_mem hd h2)

theorem mem_splitEvery_sub {c : Char} {l : List Char} {s : List Char} {x : Char}
    (h : s ∈ splitEvery c l) (hx : x ∈ s) : x ∈ l := by
  induction l generalizing s with
  | nil =>
    simp only [splitEvery, List.mem_singleton] at h
    subst h
    simp at hx
  | cons y ys ih =>
    simp only [splitEvery] at h
    by_cases hy : y = c
    · rw [if_pos hy] at h
      rcases List.mem_cons.mp h with h1 | h2
      · subst h1
        simp at hx
      · exact List.mem_cons_of_mem y (ih h2 hx)
    · rw [if_neg hy] at h
      cases he : splitEvery c ys with
      | nil =>
        rw [he] at h
        simp only [List.mem_singleton] at h
        subst h
        simp only [List.mem_singleton] at hx
        subst hx
        exact List.mem_cons_self _ _
      | cons hd tl =>
        rw [he] at h
        rcases List.mem_cons.mp h with h1 | h2
        · subst h1
          rcases List.mem_cons.mp hx with h3 | h4
          · subst h3
            exact List.mem_cons_self _ _
          · exact List.mem_cons_of_mem y (ih (he ▸ List.mem_cons_self hd tl) h4)
        · exact List.mem_cons_of_mem y (ih (he ▸ List.mem_cons_of_mem hd h2) hx)

theorem parseHostRest_inv {secure : Bool} {rest : List Char}
    {params : List (List Char × List Char)} {frag : List Char} {u : UrlRecord}
    (h : parseHostRest secure rest params frag = some u) :
    (splitFirst '/' rest).1 ≠ [] ∧
    u = ⟨secure, lowerChars (splitFirst '/' rest).1,
         (match (splitFirst '/' rest).2 with
          | none => []
          | some p => '/' :: p), params, frag⟩ := by
  unfold parseHostRest at h
  by_cases hne : (splitFirst '/' rest).1 = []
  · rw [if_pos hne] at h
    exact absurd h (by simp)
  · rw [if_neg hne] at h
    injection h with h2
    exact ⟨hne, h2.symm⟩

end UrlModel

namespace UrlModel

theorem parseQuery_wf {q : List Char} (hq : '#' ∉ q) :
    ∀ pr ∈ parseQuery q,
      ('&' ∉ pr.1 ∧ '=' ∉ pr.1 ∧ '#' ∉ pr.1) ∧ ('&' ∉ pr.2 ∧ '#' ∉ pr.2) := by
  intro pr hpr
  unfold parseQuery at hpr
  rcases List.mem_map.mp hpr with ⟨seg, hseg, he⟩
  have hsegin : seg ∈ splitEvery '&' q := (List.mem_filter.mp hseg).1
  have hamp : '&' ∉ seg := mem_splitEvery_no_sep hsegin
  have hsub : ∀ x ∈ seg, x ∈ q := fun x hx => mem_splitEvery_sub hsegin hx
  subst he
  rcases hsp : splitFirst '=' seg with ⟨name, valOpt⟩
  have hname1 : ∀ x ∈ name, x ∈ seg := by
    intro x hx
    exact mem_splitFirst_fst (by rw [hsp]; exact hx)
  have hnameq : '=' ∉ name := by
    have := splitFirst_not_mem_fst '=' seg
    rw [hsp] at this
    exact this
  cases valOpt with
  | none =>
    have hps : parseSegment seg = (name, []) := by
      unfold parseSegment
      rw [hsp]
    rw [hps]
    refine ⟨⟨?_, hnameq, ?_⟩, by simp, by simp⟩
    · exact fun hm => hamp (hname1 _ hm)
    · exact fun hm => hq (hsub _ (hname1 _ hm))
  | some val =>
    have hps : parseSegment seg = (name, val) := by
      unfold parseSegment
      rw [hsp]
    have hval1 : ∀ x ∈ val, x ∈ seg := by
      intro x hx
      exact mem_splitFirst_snd (by rw [hsp]) hx
    rw [hps]
    refine ⟨⟨?_, hnameq, ?_⟩, ?_, ?_⟩
    · exact fun hm => hamp (hname1 _ hm)
    · exact fun hm => hq (hsub _ (hname1 _ hm))
    · exact fun hm => hamp (hval1 _ hm)
    · exact fun hm => hq (hsub _ (hval1 _ hm))

theorem parseHostRest_wf {secure : Bool} {rest : List Char}
    {params : List (List Char × List Char)} {frag : List Char} {u : UrlRecord}
    (h : parseHostRest secure rest params frag = some u)
    (hrest : ∀ x ∈ rest, x ≠ '?' ∧ x ≠ '#')
    (hq : ∀ pr ∈ params,
      ('&' ∉ pr.1 ∧ '=' ∉ pr.1 ∧ '#' ∉ pr.1) ∧ ('&' ∉ pr.2 ∧ '#' ∉ pr.2)) :
    u.host ≠ [] ∧ lowerChars u.host = u.host ∧
    (∀ c ∈ u.host, c ≠ '/' ∧ c ≠ '?' ∧ c ≠ '#') ∧
    (u.path = [] ∨ ∃ p, u.path = '/' :: p) ∧
    (∀ c ∈ u.path, c ≠ '?' ∧ c ≠ '#') ∧
    (∀ pr ∈ u.params,
      ('&' ∉ pr.1 ∧ '=' ∉ pr.1 ∧ '#' ∉ pr.1) ∧ ('&' ∉ pr.2 ∧ '#' ∉ pr.2)) := by
  obtain ⟨hne, hu⟩ := parseHostRest_inv h
  have hhost_sub : ∀ x ∈ (splitFirst '/' rest).1, x ∈ rest :=
    fun x hx => mem_splitFirst_fst hx
  have hslash : '/' ∉ (splitFirst '/' rest).1 := splitFirst_not_mem_fst '/' rest
  subst hu
  refine ⟨?_, lowerChars_lowerChars _, ?_, ?_, ?_, hq⟩
  · intro hemp
    apply hne
    have := congrArg List.length hemp
    rw [lowerChars_length] at this
    exact List.length_eq_zero.mp this
  · intro c hc
    refine ⟨?_, ?_, ?_⟩
    · intro he
      subst he
      exact hslash ((mem_lowerChars (by decide) _).mp hc)
    · intro he
      subst he
      exact (hrest _ (hhost_sub _ ((mem_lowerChars (by decide) _).mp hc))).1 rfl
    · intro he
      subst he
      exact (hrest _ (hhost_sub _ ((mem_lowerChars (by decide) _).mp hc))).2 rfl
  · cases hsp : (splitFirst '/' rest).2 with
    | none => left; simp [hsp]
    | some p => right; exact ⟨p, by simp [hsp]⟩
  · cases hsp : (splitFirst '/' rest).2 with
    | none => simp [hsp]
    | some p =>
      simp only [hsp]
      intro c hc
      rcases List.mem_cons.mp hc with h1 | h2
      · subst h1
        exact ⟨by decide, by decide⟩
      · exact hrest _ (mem_splitFirst_snd hsp h2)

end UrlModel

namespace UrlModel

theorem parseUrl_wf {l : List Char} {u : UrlRecord} (h : parseUrl l = some u) :
    u.host ≠ [] ∧ lowerChars u.host = u.host ∧
    (∀ c ∈ u.host, c ≠ '/' ∧ c ≠ '?' ∧ c ≠ '#') ∧
    (u.path = [] ∨ ∃ p, u.path = '/' :: p) ∧
    (∀ c ∈ u.path, c ≠ '?' ∧ c ≠ '#') ∧
    (∀ pr ∈ u.params,
      ('&' ∉ pr.1 ∧ '=' ∉ pr.1 ∧ '#' ∉ pr.1) ∧ ('&' ∉ pr.2 ∧ '#' ∉ pr.2)) := by
  unfold parseUrl at h
  have hnh : '#' ∉ (splitFirst '#' l).1 := splitFirst_not_mem_fst '#' l
  have hnq : '?' ∉ (splitFirst '?' (splitFirst '#' l).1).1 :=
    splitFirst_not_mem_fst '?' (splitFirst '#' l).1
  have hsub1 : ∀ x ∈ (splitFirst '?' (splitFirst '#' l).1).1, x ∈ (splitFirst '#' l).1 :=
    fun x hx => mem_splitFirst_fst hx
  have hrest : ∀ k, ∀ x ∈ ((splitFirst '?' (splitFirst '#' l).1).1).drop k,
      x ≠ '?' ∧ x ≠ '#' := by
    intro k x hx
    have hx2 : x ∈ (splitFirst '?' (splitFirst '#' l).1).1 := List.mem_of_mem_drop hx
    constructor
    · intro he
      subst he
      exact hnq hx2
    · intro he
      subst he
      exact hnh (hsub1 _ hx2)
  have hqwf : ∀ pr ∈ parseQuery ((splitFirst '?' (splitFirst '#' l).1).2.getD []),
      ('&' ∉ pr.1 ∧ '=' ∉ pr.1 ∧ '#' ∉ pr.1) ∧ ('&' ∉ pr.2 ∧ '#' ∉ pr.2) := by
    cases hq2 : (splitFirst '?' (splitFirst '#' l).1).2 with
    | none => simp [parseQuery, splitEvery]
    | some qv =>
      apply parseQuery_wf
      intro hm
      exact hnh (mem_splitFirst_snd hq2 hm)
  by_cases h1 : isPrefixList "http://".toList (splitFirst '?' (splitFirst '#' l).1).1 = true
  · rw [if_pos h1] at h
    exact parseHostRest_wf h (hrest 7) hqwf
  · rw [if_neg h1] at h
    by_cases h2 : isPrefixList "https://".toList (splitFirst '?' (splitFirst '#' l).1).1 = true
    · rw [if_pos h2] at h
      exact parseHostRest_wf h (hrest 8) hqwf
    · rw [if_neg h2] at h
      exact absurd h (by simp)

end UrlModel

namespace UrlModel

theorem ltName_neg_trans {a b c : List Char} (h1 : ltName b a = false)
    (h2 : ltName c b = false) : ltName c a = false := by
  by_contra h3
  have h3' : ltName c a = true := by
    cases h4 : ltName c a
    · exact absurd h4 h3
    · rfl
  rcases ltName_trichotomy c b with hcb | hcb | hcb
  · rw [hcb] at h2
    exact absurd h2 (by simp)
  · subst hcb
    rw [h3'] at h1
    exact absurd h1 (by simp)
  · have := ltName_trans hcb h3'
    rw [this] at h1
    exact absurd h1 (by simp)

/-- The WF facts transfer from a parsed record to the lowered,
normalized record, making it serializable-and-reparsable. -/
theorem wf_lower_normCore {u : UrlRecord}
    (hw : u.host ≠ [] ∧ lowerChars u.host = u.host ∧
      (∀ c ∈ u.host, c ≠ '/' ∧ c ≠ '?' ∧ c ≠ '#') ∧
      (u.path = [] ∨ ∃ p, u.path = '/' :: p) ∧
      (∀ c ∈ u.path, c ≠ '?' ∧ c ≠ '#') ∧
      (∀ pr ∈ u.params,
        ('&' ∉ pr.1 ∧ '=' ∉ pr.1 ∧ '#' ∉ pr.1) ∧ ('&' ∉ pr.2 ∧ '#' ∉ pr.2))) :
    (lowerRecord (normCore u)).host ≠ [] ∧
    lowerChars (lowerRecord (normCore u)).host = (lowerRecord (normCore u)).host ∧
    (∀ c ∈ (lowerRecord (normCore u)).host, c ≠ '/' ∧ c ≠ '?' ∧ c ≠ '#') ∧
    ((lowerRecord (normCore u)).path = [] ∨
      ∃ p, (lowerRecord (normCore u)).path = '/' :: p) ∧
    (∀ c ∈ (lowerRecord (normCore u)).path, c ≠ '?' ∧ c ≠ '#') ∧
    (∀ pr ∈ (lowerRecord (normCore u)).params,
      ('&' ∉ pr.1 ∧ '=' ∉ pr.1 ∧ '#' ∉ pr.1) ∧ ('&' ∉ pr.2 ∧ '#' ∉ pr.2)) ∧
    (lowerRecord (normCore u)).frag = [] := by
  obtain ⟨h1, h2, h3, h4, h5, h6⟩ := hw
  have hhost : (lowerRecord (normCore u)).host = u.host := by
    simp only [lowerRecord, normCore]
    exact h2
  have hpath : (lowerRecord (normCore u)).path =
      lowerChars (if u.path = [] then ['/'] else u.path) := rfl
  have hparams : (lowerRecord (normCore u)).params =
      (sortByStable (fun a b => ltName a.1 b.1)
        (u.params.filter (fun p => ¬ trackingParams.contains p.1))).map
        (fun p => (lowerChars p.1, lowerChars p.2)) := rfl
  have hparam_mem : ∀ pr ∈ (lowerRecord (normCore u)).params,
      ∃ pr0 ∈ u.params, pr = (lowerChars pr0.1, lowerChars pr0.2) := by
    intro pr hpr
    rw [hparams] at hpr
    rcases List.mem_map.mp hpr with ⟨pr0, hpr0, he⟩
    have hmem1 := (mem_sortByStable _ _ _).mp hpr0
    have hmem2 := (List.mem_filter.mp hmem1).1
    exact ⟨pr0, hmem2, he.symm⟩
  refine ⟨?_, ?_, ?_, ?_, ?_, ?_, rfl⟩
  · rw [hhost]
    exact h1
  · rw [hhost]
    exact h2
  · rw [hhost]
    exact h3
  · rw [hpath]
    by_cases hp : u.path = []
    · right
      exact ⟨[], by simp [hp, lowerChars]⟩
    · rcases h4 with h4 | ⟨p, h4⟩
      · exact absurd h4 hp
      · right
        refine ⟨lowerChars p, ?_⟩
        rw [if_neg hp, h4, lowerChars_cons]
        congr 1
  · rw [hpath]
    intro c hc
    by_cases hp : u.path = []
    · rw [if_pos hp] at hc
      have : c = '/' := by
        have h7 : lowerChars ['/'] = ['/'] := by decide
        rw [h7] at hc
        simpa using hc
      subst this
      exact ⟨by decide, by decide⟩
    · rw [if_neg hp] at hc
      constructor
      · intro he
        subst he
        exact (h5 _ ((mem_lowerChars (by decide) _).mp hc)).1 rfl
      · intro he
        subst he
        exact (h5 _ ((mem_lowerChars (by decide) _).mp hc)).2 rfl
  · intro pr hpr
    rcases hparam_mem pr hpr with ⟨pr0, hpr0, he⟩
    subst he
    obtain ⟨⟨ha1, ha2, ha3⟩, hb1, hb2⟩ := h6 pr0 hpr0
    refine ⟨⟨?_, ?_, ?_⟩, ?_, ?_⟩
    · exact fun hm => ha1 ((mem_lowerChars (by decide) _).mp hm)
    · exact fun hm => ha2 ((mem_lowerChars (by decide) _).mp hm)
    · exact fun hm => ha3 ((mem_lowerChars (by decide) _).mp hm)
    · exact fun hm => hb1 ((mem_lowerChars (by decide) _).mp hm)
    · exact fun hm => hb2 ((mem_lowerChars (by decide) _).mp hm)

theorem normalize_eq_serialize {s : String} {u : UrlRecord}
    (h : parseUrl s.toList = some u) :
    normalize s = some (String.mk (serializeUrl (lowerRecord (normCore u)))) := by
  unfold normalize
  rw [h, Option.map_some']
  rw [serializeUrl_lowerRecord]

theorem parse_of_normalize {s t : String} (h : normalize s = some t) :
    ∃ u, parseUrl s.toList = some u ∧
      t = String.mk (serializeUrl (lowerRecord (normCore u))) ∧
      parseUrl t.toList = some (lowerRecord (normCore u)) := by
  unfold normalize at h
  cases hp : parseUrl s.toList with
  | none =>
    rw [hp] at h
    exact absurd h (by simp)
  | some u =>
    rw [hp, Option.map_some'] at h
    injection h with h2
    refine ⟨u, rfl, ?_, ?_⟩
    · rw [← h2, serializeUrl_lowerRecord]
    · have hwf := parseUrl_wf hp
      obtain ⟨w1, w2, w3, w4, w5, w6, w7⟩ := wf_lower_normCore hwf
      have ht : t.toList = serializeUrl (lowerRecord (normCore u)) := by
        rw [← h2, serializeUrl_lowerRecord]
        rfl
      rw [ht]
      exact parse_serialize _ w1 w2 w3 w4 w5 w6 w7

theorem normalize_normalize_isSome {s t : String} (h : normalize s = some t) :
    ∃ t2, normalize t = some t2 := by
  rcases parse_of_normalize h with ⟨u, _, _, hpt⟩
  exact ⟨_, normalize_eq_serialize hpt⟩

end UrlModel

namespace UrlModel

theorem lowerRecord_lowerRecord (w : UrlRecord) :
    lowerRecord (lowerRecord w) = lowerRecord w := by
  unfold lowerRecord
  simp only [List.map_map]
  congr 1
  · exact lowerChars_lowerChars _
  · exact lowerChars_lowerChars _
  · apply List.map_congr_left
    intro pr _
    show (lowerChars (lowerChars pr.1), lowerChars (lowerChars pr.2)) =
      (lowerChars pr.1, lowerChars pr.2)
    rw [lowerChars_lowerChars, lowerChars_lowerChars]
  · exact lowerChars_lowerChars _

theorem normCore_eq_self {v : UrlRecord} (hfrag : v.frag = [])
    (hpath : v.path ≠ [])
    (hfilter : v.params.filter (fun p => ¬ trackingParams.contains p.1) = v.params)
    (hpw : v.params.Pairwise (fun a b => ltName b.1 a.1 = false)) :
    normCore v = v := by
  have hsort := sortByStable_eq_of_pairwise
    (fun (a b : List Char × List Char) => ltName a.1 b.1) v.params hpw
  show UrlRecord.mk v.secure v.host (if v.path = [] then ['/'] else v.path)
      (sortByStable (fun a b => ltName a.1 b.1)
        (v.params.filter (fun p => ¬ trackingParams.contains p.1))) [] = v
  rw [hfilter, hsort, if_neg hpath]
  obtain ⟨se, h0, p0, ps, fr⟩ := v
  simp only at hfrag
  simp [hfrag]

end UrlModel

namespace UrlModel

theorem normalize_idem_of_lower_names {s t : String} {u : UrlRecord}
    (hp : parseUrl s.toList = some u)
    (hlow : ∀ pr ∈ u.params, ∀ c ∈ pr.1, ¬ (65 ≤ c.toNat ∧ c.toNat ≤ 90))
    (h : normalize s = some t) :
    normalize t = some t := by
  rcases parse_of_normalize h with ⟨u2, hp2, ht, hpt⟩
  rw [hp] at hp2
  injection hp2 with hu2
  subst hu2
  have hnorm2 := normalize_eq_serialize hpt
  have hsortmem : ∀ pr ∈ sortByStable (fun a b => ltName a.1 b.1)
      (u.params.filter (fun p => ¬ trackingParams.contains p.1)), pr ∈ u.params := by
    intro pr hpr
    exact (List.mem_filter.mp ((mem_sortByStable _ _ _).mp hpr)).1
  have hnames : ∀ pr ∈ sortByStable (fun a b => ltName a.1 b.1)
      (u.params.filter (fun p => ¬ trackingParams.contains p.1)),
      lowerChars pr.1 = pr.1 := by
    intro pr hpr
    exact lowerChars_fixed (hlow pr (hsortmem pr hpr))
  have hvparams : (lowerRecord (normCore u)).params =
      (sortByStable (fun a b => ltName a.1 b.1)
        (u.params.filter (fun p => ¬ trackingParams.contains p.1))).map
        (fun p => (lowerChars p.1, lowerChars p.2)) := rfl
  have hA : (lowerRecord (normCore u)).params.filter
      (fun p => ¬ trackingParams.contains p.1) = (lowerRecord (normCore u)).params := by
    apply List.filter_eq_self.mpr
    intro x hx
    rw [hvparams] at hx
    rcases List.mem_map.mp hx with ⟨pr, hpr, he⟩
    have hfx : x.1 = pr.1 := by
      rw [← he, hnames pr hpr]
    have hflt := (List.mem_filter.mp ((mem_sortByStable _ _ _).mp hpr)).2
    rw [decide_eq_true_iff] at hflt ⊢
    rw [hfx]
    exact hflt
  have hB : (lowerRecord (normCore u)).params.Pairwise
      (fun a b => ltName b.1 a.1 = false) := by
    rw [hvparams]
    apply List.pairwise_map.mpr
    have hpw0 := pairwise_sortByStable
      (fun (a b : List Char × List Char) => ltName a.1 b.1)
      (fun a b hab => ltName_asymm hab)
      (fun a b c h1 h2 => ltName_neg_trans h1 h2)
      (u.params.filter (fun p => ¬ trackingParams.contains p.1))
    apply List.Pairwise.imp_of_mem ?_ hpw0
    intro a b ha hb hab
    show ltName (lowerChars b.1) (lowerChars a.1) = false
    rw [hnames a ha, hnames b hb]
    exact hab
  have hpath : (lowerRecord (normCore u)).path ≠ [] := by
    show lowerChars (if u.path = [] then ['/'] else u.path) ≠ []
    by_cases hup : u.path = []
    · rw [if_pos hup]
      decide
    · rw [if_neg hup]
      intro hlem
      apply hup
      have := congrArg List.length hlem
      rw [lowerChars_length] at this
      exact List.length_eq_zero.mp this
  have hcore : normCore (lowerRecord (normCore u)) = lowerRecord (normCore u) :=
    normCore_eq_self rfl hpath hA hB
  rw [hcore, lowerRecord_lowerRecord] at hnorm2
  rw [← ht] at hnorm2
  exact hnorm2

end UrlModel

namespace Crawler

theorem crawlUrl_none {w : World} {p : List CLink → String → List CLink}
    {cfg : CrawlerConfig} {st : CrawlerState} {url : String} {depth : Nat}
    {priority : ℚ} {rc : Nat} (hn : UrlModel.normalize url = none) :
    crawlUrl w p cfg st url depth priority rc = (st, none) := by
  unfold crawlUrl
  rw [hn]

theorem crawlUrl_guard {w : World} {p : List CLink → String → List CLink}
    {cfg : CrawlerConfig} {st : CrawlerState} {url n : String} {depth : Nat}
    {priority : ℚ} {rc : Nat} (hn : UrlModel.normalize url = some n)
    (hg : n ∈ st.crawledUrls ∨ n ∈ st.failedUrls ∨ depth > cfg.maxDepth) :
    crawlUrl w p cfg st url depth priority rc = (st, none) := by
  unfold crawlUrl
  simp only [hn]
  rw [if_pos]
  rcases hg with h | h | h
  · exact Or.inl (List.elem_eq_true_of_mem h)
  · exact Or.inr (Or.inl (List.elem_eq_true_of_mem h))
  · exact Or.inr (Or.inr h)

end Crawler

namespace Crawler

/-- Facts about the frontier-insertion fold of scheduleChildUrls. -/
theorem scheduleFold_facts (parent : String) (depth : Nat)
    (ls : List CLink) :
    ∀ st : CrawlerState,
    ((ls.foldl (fun st link =>
      if st.crawledUrls.contains link.url ∨ pendingHas st link.url then st
      else
        { st with
          pendingUrls := st.pendingUrls ++
            [(link.url, { depth := depth, priority := link.priority,
                          parent := some parent })],
          scheduledChildren := st.scheduledChildren + 1 }) st)).crawledUrls = st.crawledUrls ∧
    ((ls.foldl (fun st link =>
      if st.crawledUrls.contains link.url ∨ pendingHas st link.url then st
      else
        { st with
          pendingUrls := st.pendingUrls ++
            [(link.url, { depth := depth, priority := link.priority,
                          parent := some parent })],
          scheduledChildren := st.scheduledChildren + 1 }) st)).failedUrls = st.failedUrls ∧
    ((ls.foldl (fun st link =>
      if st.crawledUrls.contains link.url ∨ pendingHas st link.url then st
      else
        { st with
          pendingUrls := st.pendingUrls ++
            [(link.url, { depth := depth, priority := link.priority,
                          parent := some parent })],
          scheduledChildren := st.scheduledChildren + 1 }) st)).fetchLog = st.fetchLog ∧
    ((ls.foldl (fun st link =>
      if st.crawledUrls.contains link.url ∨ pendingHas st link.url then st
      else
        { st with
          pendingUrls := st.pendingUrls ++
            [(link.url, { depth := depth, priority := link.priority,
                          parent := some parent })],
          scheduledChildren := st.scheduledChildren + 1 }) st)).activeCrawls = st.activeCrawls ∧
    (∀ e ∈ st.pendingUrls, e ∈ ((ls.foldl (fun st link =>
      if st.crawledUrls.contains link.url ∨ pendingHas st link.url then st
      else
        { st with
          pendingUrls := st.pendingUrls ++
            [(link.url, { depth := depth, priority := link.priority,
                          parent := some parent })],
          scheduledChildren := st.scheduledChildren + 1 }) st)).pendingUrls) ∧
    ((st.pendingUrls.map Prod.fst).Nodup →
      (((ls.foldl (fun st link =>
      if st.crawledUrls.contains link.url ∨ pendingHas st link.url then st
      else
        { st with
          pendingUrls := st.pendingUrls ++
            [(link.url, { depth := depth, priority := link.priority,
                          parent := some parent })],
          scheduledChildren := st.scheduledChildren + 1 }) st)).pendingUrls.map Prod.fst).Nodup) ∧
    (∀ e ∈ ((ls.foldl (fun st link =>
      if st.crawledUrls.contains link.url ∨ pendingHas st link.url then st
      else
        { st with
          pendingUrls := st.pendingUrls ++
            [(link.url, { depth := depth, priority := link.priority,
                          parent := some parent })],
          scheduledChildren := st.scheduledChildren + 1 }) st)).pendingUrls,
      e ∈ st.pendingUrls ∨ e.2.depth = depth) := by
  induction ls with
  | nil =>
    intro st
    exact ⟨rfl, rfl, rfl, rfl, fun e he => he, fun h => h, fun e he => Or.inl he⟩
  | cons link rest ih =>
    intro st
    rw [List.foldl_cons]
    by_cases hc : st.crawledUrls.contains link.url = true ∨ pendingHas st link.url = true
    · rw [if_pos hc]
      exact ih st
    · rw [if_neg hc]
      set st2 : CrawlerState :=
        { st with
          pendingUrls := st.pendingUrls ++
            [(link.url, { depth := depth, priority := link.priority,
                          parent := some parent })],
          scheduledChildren := st.scheduledChildren + 1 } with hst2
      obtain ⟨i1, i2, i3, i4, i5, i6, i7⟩ := ih st2
      refine ⟨i1, i2, i3, i4, ?_, ?_, ?_⟩
      · intro e he
        apply i5
        simp only [hst2, List.mem_append]
        exact Or.inl he
      · intro hnd
        apply i6
        simp only [hst2, List.map_append, List.map_cons, List.map_nil]
        rw [List.nodup_append]
        refine ⟨hnd, List.nodup_singleton _, ?_⟩
        intro a ha hb
        simp only [List.mem_singleton] at hb
        subst hb
        have hph : pendingHas st link.url = true := by
          unfold pendingHas
          rw [List.any_eq_true]
          rcases List.mem_map.mp ha with ⟨e, he, hke⟩
          exact ⟨e, he, by simp [hke]⟩
        exact hc (Or.inr hph)
      · intro e he
        rcases i7 e he with h1 | h2
        · rcases (by simpa [hst2] using h1 :
              e ∈ st.pendingUrls ∨ e = (link.url,
                { depth := depth, priority := link.priority,
                  parent := some parent })) with h3 | h4
          · exact Or.inl h3
          · right
            subst h4
            rfl
        · exact Or.inr h2

/-- The same facts for scheduleChildUrls itself. -/
theorem scheduleChildUrls_facts (p : List CLink → String → List CLink)
    (st : CrawlerState) (links : List CLink) (parent : String) (depth : Nat) :
    (scheduleChildUrls p st links parent depth).crawledUrls = st.crawledUrls ∧
    (scheduleChildUrls p st links parent depth).failedUrls = st.failedUrls ∧
    (scheduleChildUrls p st links parent depth).fetchLog = st.fetchLog ∧
    (scheduleChildUrls p st links parent depth).activeCrawls = st.activeCrawls ∧
    (∀ e ∈ st.pendingUrls, e ∈ (scheduleChildUrls p st links parent depth).pendingUrls) ∧
    ((st.pendingUrls.map Prod.fst).Nodup →
      ((scheduleChildUrls p st links parent depth).pendingUrls.map Prod.fst).Nodup) ∧
    (∀ e ∈ (scheduleChildUrls p st links parent depth).pendingUrls,
      e ∈ st.pendingUrls ∨ e.2.depth = depth) :=
  scheduleFold_facts parent depth
    ((p links parent).take (min 5 (p links parent).length)) st

end Crawler

namespace Crawler

theorem crawlUrl_success_eq {w : World} {p : List CLink → String → List CLink}
    {cfg : CrawlerConfig} {st : CrawlerState} {url n : String} {depth : Nat}
    {priority : ℚ} {rc : Nat} {page : Page}
    (hn : UrlModel.normalize url = some n)
    (hg : ¬ (st.crawledUrls.contains n = true ∨ st.failedUrls.contains n = true ∨
      depth > cfg.maxDepth))
    (hw : w n = .success page) :
    crawlUrl w p cfg st url depth priority rc =
      (let st1 : CrawlerState := { st with
        activeCrawls := st.activeCrawls + 1,
        crawledUrls := st.crawledUrls ++ [n],
        totalRequested := st.totalRequested + 1,
        fetchLog := st.fetchLog ++ [n] }
       let st2 : CrawlerState := { st1 with
        contentStore := SearchModel.setA st1.contentStore n
          { url := n, page := page, crawlDepth := depth, crawlPriority := priority } }
       let st3 := if depth < cfg.maxDepth then
          scheduleChildUrls p st2 page.links n (depth + 1) else st2
       let st4 : CrawlerState := { st3 with totalCompleted := st3.totalCompleted + 1 }
       ({ st4 with activeCrawls := st4.activeCrawls - 1 },
        some { url := n, page := page, crawlDepth := depth, crawlPriority := priority })) := by
  unfold crawlUrl
  simp only [hn]
  rw [if_neg hg]
  simp only [hw]

theorem crawlUrl_failure_retry_eq {w : World} {p : List CLink → String → List CLink}
    {cfg : CrawlerConfig} {st : CrawlerState} {url n msg : String} {depth : Nat}
    {priority : ℚ} {rc : Nat}
    (hn : UrlModel.normalize url = some n)
    (hg : ¬ (st.crawledUrls.contains n = true ∨ st.failedUrls.contains n = true ∨
      depth > cfg.maxDepth))
    (hw : w n = .failure msg) (htr : rc < 2 ∧ isTransientMsg msg) :
    crawlUrl w p cfg st url depth priority rc =
      ({ st with
        crawledUrls := st.crawledUrls ++ [n],
        failedUrls := st.failedUrls ++ [n],
        activeCrawls := st.activeCrawls + 1 - 1 - 1,
        totalRequested := st.totalRequested + 1,
        totalFailed := st.totalFailed + 1,
        fetchLog := st.fetchLog ++ [n] }, none) := by
  unfold crawlUrl
  simp only [hn]
  rw [if_neg hg]
  simp only [hw]
  rw [dif_pos htr]
  rw [crawlUrl_guard hn (Or.inl (by simp))]

theorem crawlUrl_failure_final_eq {w : World} {p : List CLink → String → List CLink}
    {cfg : CrawlerConfig} {st : CrawlerState} {url n msg : String} {depth : Nat}
    {priority : ℚ} {rc : Nat}
    (hn : UrlModel.normalize url = some n)
    (hg : ¬ (st.crawledUrls.contains n = true ∨ st.failedUrls.contains n = true ∨
      depth > cfg.maxDepth))
    (hw : w n = .failure msg) (htr : ¬ (rc < 2 ∧ isTransientMsg msg)) :
    crawlUrl w p cfg st url depth priority rc =
      ({ st with
        crawledUrls := st.crawledUrls ++ [n],
        failedUrls := st.failedUrls ++ [n],
        activeCrawls := st.activeCrawls + 1 - 1,
        totalRequested := st.totalRequested + 1,
        totalFailed := st.totalFailed + 1,
        fetchLog := st.fetchLog ++ [n],
        crawlErrorEvents := st.crawlErrorEvents ++ [n] }, none) := by
  unfold crawlUrl
  simp only [hn]
  rw [if_neg hg]
  simp only [hw]
  rw [dif_neg htr]

end Crawler

namespace Crawler

theorem crawlUrl_main {w : World} {p : List CLink → String → List CLink}
    {cfg : CrawlerConfig} {st : CrawlerState} {url n : String} {depth : Nat}
    {priority : ℚ} {rc : Nat}
    (hn : UrlModel.normalize url = some n) (hInv : Inv w cfg st) :
    Inv w cfg (crawlUrl w p cfg st url depth priority rc).1 ∧
    (∀ x ∈ st.crawledUrls, x ∈ (crawlUrl w p cfg st url depth priority rc).1.crawledUrls) ∧
    (∀ e ∈ st.pendingUrls, e ∈ (crawlUrl w p cfg st url depth priority rc).1.pendingUrls) ∧
    (depth ≤ cfg.maxDepth → n ∈ (crawlUrl w p cfg st url depth priority rc).1.crawledUrls) := by
  obtain ⟨j1, j2, j3, j4, j5, j6⟩ := hInv
  by_cases hg : st.crawledUrls.contains n = true ∨ st.failedUrls.contains n = true ∨
      depth > cfg.maxDepth
  · have hgm : n ∈ st.crawledUrls ∨ n ∈ st.failedUrls ∨ depth > cfg.maxDepth := by
      rcases hg with h | h | h
      · exact Or.inl (List.mem_of_elem_eq_true h)
      · exact Or.inr (Or.inl (List.mem_of_elem_eq_true h))
      · exact Or.inr (Or.inr h)
    rw [crawlUrl_guard hn hgm]
    refine ⟨⟨j1, j2, j3, j4, j5, j6⟩, fun x hx => hx, fun e he => he, ?_⟩
    intro hd
    rcases hgm with h | h | h
    · exact h
    · exact j3 _ h
    · omega
  · push_neg at hg
    obtain ⟨hg1, hg2, hg3⟩ := hg
    have hg1m : n ∉ st.crawledUrls := fun hm => hg1 (List.elem_eq_true_of_mem hm)
    have hg2m : n ∉ st.failedUrls := fun hm => hg2 (List.elem_eq_true_of_mem hm)
    have hgneg : ¬ (st.crawledUrls.contains n = true ∨ st.failedUrls.contains n = true ∨
        depth > cfg.maxDepth) := by
      push_neg
      exact ⟨hg1, hg2, hg3⟩
    have hlog_n : n ∉ st.fetchLog := fun hm => hg1m ((j2 n).mp hm)
    -- common pieces for the post-fetch state
    have hlog' : (st.fetchLog ++ [n]).Nodup := by
      rw [List.nodup_append]
      exact ⟨j1, List.nodup_singleton _, by
        intro a ha hb
        simp only [List.mem_singleton] at hb
        subst hb
        exact hlog_n ha⟩
    have hiff' : ∀ x, x ∈ st.fetchLog ++ [n] ↔ x ∈ st.crawledUrls ++ [n] := by
      intro x
      simp only [List.mem_append, List.mem_singleton]
      constructor
      · rintro (h | h)
        · exact Or.inl ((j2 x).mp h)
        · exact Or.inr h
      · rintro (h | h)
        · exact Or.inl ((j2 x).mpr h)
        · exact Or.inr h
    cases hwn : w n with
    | success page =>
      rw [crawlUrl_success_eq hn hgneg hwn]
      by_cases hd : depth < cfg.maxDepth
      · simp only [if_pos hd]
        obtain ⟨s1, s2, s3, s4, s5, s6, s7⟩ := scheduleChildUrls_facts p
          { st with
            activeCrawls := st.activeCrawls + 1,
            crawledUrls := st.crawledUrls ++ [n],
            totalRequested := st.totalRequested + 1,
            fetchLog := st.fetchLog ++ [n],
            contentStore := SearchModel.setA st.contentStore n
              { url := n, page := page, crawlDepth := depth, crawlPriority := priority } }
          page.links n (depth + 1)
        refine ⟨⟨?_, ?_, ?_, ?_, ?_, ?_⟩, ?_, ?_, ?_⟩
        · show (scheduleChildUrls p _ page.links n (depth + 1)).fetchLog.Nodup
          rw [s3]
          exact hlog'
        · intro x
          show x ∈ (scheduleChildUrls p _ page.links n (depth + 1)).fetchLog ↔
            x ∈ (scheduleChildUrls p _ page.links n (depth + 1)).crawledUrls
          rw [s3, s1]
          exact hiff' x
        · intro x hx
          show x ∈ (scheduleChildUrls p _ page.links n (depth + 1)).crawledUrls
          rw [s2] at hx
          rw [s1]
          exact List.mem_append.mpr (Or.inl (j3 x hx))
        · intro x hx
          show x ∈ (scheduleChildUrls p _ page.links n (depth + 1)).failedUrls ↔ _
          rw [s1] at hx
          rw [s2]
          rcases List.mem_append.mp hx with h | h
          · exact j4 x h
          · simp only [List.mem_singleton] at h
            subst h
            rw [hwn]
            simp only [FetchOutcome.isFailure]
            constructor
            · intro hm
              exact absurd hm hg2m
            · intro hfalse
              exact absurd hfalse (by simp)
        · exact s6 j5
        · intro e he
          rcases s7 e he with h | h
          · exact j6 e h
          · omega
        · intro x hx
          show x ∈ (scheduleChildUrls p _ page.links n (depth + 1)).crawledUrls
          rw [s1]
          exact List.mem_append.mpr (Or.inl hx)
        · intro e he
          exact s5 e he
        · intro _
          show n ∈ (scheduleChildUrls p _ page.links n (depth + 1)).crawledUrls
          rw [s1]
          exact List.mem_append.mpr (Or.inr (List.mem_singleton.mpr rfl))
      · simp only [if_neg hd]
        refine ⟨⟨hlog', hiff', ?_, ?_, j5, j6⟩, ?_, fun e he => he, ?_⟩
        · intro x hx
          exact List.mem_append.mpr (Or.inl (j3 x hx))
        · intro x hx
          rcases List.mem_append.mp hx with h | h
          · exact j4 x h
          · simp only [List.mem_singleton] at h
            subst h
            rw [hwn]
            simp only [FetchOutcome.isFailure]
            constructor
            · intro hm
              exact absurd hm hg2m
            · intro hfalse
              exact absurd hfalse (by simp)
        · intro x hx
          exact List.mem_append.mpr (Or.inl hx)
        · intro _
          exact List.mem_append.mpr (Or.inr (List.mem_singleton.mpr rfl))
    | failure msg =>
      have hfail' : ∀ x ∈ st.failedUrls ++ [n], x ∈ st.crawledUrls ++ [n] := by
        intro x hx
        rcases List.mem_append.mp hx with h | h
        · exact List.mem_append.mpr (Or.inl (j3 x h))
        · exact List.mem_append.mpr (Or.inr h)
      have hiff2 : ∀ x ∈ st.crawledUrls ++ [n],
          (x ∈ st.failedUrls ++ [n] ↔ (w x).isFailure = true) := by
        intro x hx
        rcases List.mem_append.mp hx with h | h
        · have hxn : x ≠ n := fun he => hg1m (he ▸ h)
          simp only [List.mem_append, List.mem_singleton, hxn, or_false]
          exact j4 x h
        · simp only [List.mem_singleton] at h
          subst h
          simp only [List.mem_append, List.mem_singleton, or_true, true_iff]
          rw [hwn]
          rfl
      by_cases htr : rc < 2 ∧ isTransientMsg msg
      · rw [crawlUrl_failure_retry_eq hn hgneg hwn htr]
        exact ⟨⟨hlog', hiff', hfail', hiff2, j5, j6⟩,
          fun x hx => List.mem_append.mpr (Or.inl hx), fun e he => he,
          fun _ => List.mem_append.mpr (Or.inr (List.mem_singleton.mpr rfl))⟩
      · rw [crawlUrl_failure_final_eq hn hgneg hwn htr]
        exact ⟨⟨hlog', hiff', hfail', hiff2, j5, j6⟩,
          fun x hx => List.mem_append.mpr (Or.inl hx), fun e he => he,
          fun _ => List.mem_append.mpr (Or.inr (List.mem_singleton.mpr rfl))⟩

end Crawler

namespace Crawler

theorem eq_of_keys_nodup {α β : Type} {l : List (α × β)}
    (h : (l.map Prod.fst).Nodup) {a b : α × β} (ha : a ∈ l) (hb : b ∈ l)
    (hk : a.1 = b.1) : a = b := by
  induction l with
  | nil => simp at ha
  | cons x xs ih =>
    simp only [List.map_cons, List.nodup_cons] at h
    rcases List.mem_cons.mp ha with h1 | h1 <;>
      rcases List.mem_cons.mp hb with h2 | h2
    · rw [h1, h2]
    · exfalso
      apply h.1
      rw [← h1, hk]
      exact List.mem_map.mpr ⟨b, h2, rfl⟩
    · exfalso
      apply h.1
      rw [← h2, ← hk]
      exact List.mem_map.mpr ⟨a, h1, rfl⟩
    · exact ih h.2 h1 h2

theorem getNextUrl_mem {st : CrawlerState} {e : String × PendingMeta}
    (h : getNextUrl st = some e) : e ∈ st.pendingUrls := by
  unfold getNextUrl at h
  cases hp : st.pendingUrls with
  | nil => rw [hp] at h; exact absurd h (by simp)
  | cons e0 rest =>
    rw [hp] at h
    injection h with he
    have hfold : ∀ (rest : List (String × PendingMeta)) (e0 : String × PendingMeta),
        (rest.foldl (fun best x => if x.2.priority > best.2.priority then x else best) e0) = e0 ∨
        (rest.foldl (fun best x => if x.2.priority > best.2.priority then x else best) e0) ∈ rest := by
      intro rest
      induction rest with
      | nil => intro e0; left; rfl
      | cons x xs ih =>
        intro e0
        rw [List.foldl_cons]
        rcases ih (if x.2.priority > e0.2.priority then x else e0) with h1 | h1
        · rw [h1]
          by_cases hcond : x.2.priority > e0.2.priority
        
          · rw [if_pos hcond]
            exact Or.inr (List.mem_cons_self _ _)
          · rw [if_neg hcond]
            exact Or.inl rfl
        · exact Or.inr (List.mem_cons_of_mem x h1)
    rcases hfold rest e0 with h1 | h1
    · rw [← he, h1]
      exact List.mem_cons_self _ _
    · rw [← he]
      exact List.mem_cons_of_mem e0 h1

end Crawler

namespace Crawler

theorem crawlBatchLoop_main {w : World} {p : List CLink → String → List CLink}
    {cfg : CrawlerConfig} {n n' : String}
    (hn' : UrlModel.normalize n = some n') :
    ∀ (fuel : Nat) (st : CrawlerState), Inv w cfg st →
    (n' ∈ st.crawledUrls ∨ ∃ m, (n, m) ∈ st.pendingUrls) →
    (crawlBatchLoop w p cfg fuel st).2 = true →
    Inv w cfg (crawlBatchLoop w p cfg fuel st).1 ∧
    n' ∈ (crawlBatchLoop w p cfg fuel st).1.crawledUrls := by
  intro fuel
  induction fuel with
  | zero =>
    intro st _ _ hdone
    exact absurd hdone (by simp [crawlBatchLoop])
  | succ fuel ih =>
    intro st hInv hreach hdone
    by_cases hc : st.pendingUrls.length > 0 ∨ st.activeCrawls > 0
    · simp only [crawlBatchLoop, if_pos hc] at hdone ⊢
      cases hgn : getNextUrl st with
      | none =>
        rw [hgn] at hdone
        exact ih st hInv hreach hdone
      | some e =>
        rw [hgn] at hdone
        obtain ⟨j1, j2, j3, j4, j5, j6⟩ := hInv
        have hemem := getNextUrl_mem hgn
        have hdone2 : (crawlBatchLoop w p cfg fuel
            (crawlUrl w p cfg
              { st with pendingUrls := st.pendingUrls.filter (fun q => ¬ q.1 = e.1) }
              e.1 e.2.depth e.2.priority 0).1).2 = true := hdone
        show Inv w cfg (crawlBatchLoop w p cfg fuel
            (crawlUrl w p cfg
              { st with pendingUrls := st.pendingUrls.filter (fun q => ¬ q.1 = e.1) }
              e.1 e.2.depth e.2.priority 0).1).1 ∧
          n' ∈ (crawlBatchLoop w p cfg fuel
            (crawlUrl w p cfg
              { st with pendingUrls := st.pendingUrls.filter (fun q => ¬ q.1 = e.1) }
              e.1 e.2.depth e.2.priority 0).1).1.crawledUrls
        set st2 : CrawlerState :=
          { st with pendingUrls := st.pendingUrls.filter (fun q => ¬ q.1 = e.1) }
          with hst2
        have hInv2 : Inv w cfg st2 := by
          refine ⟨j1, j2, j3, j4, ?_, ?_⟩
          · show ((st.pendingUrls.filter (fun q => ¬ q.1 = e.1)).map Prod.fst).Nodup
            have hsub : List.Sublist (st.pendingUrls.filter (fun q => ¬ q.1 = e.1))
                st.pendingUrls :=
              List.filter_sublist _
            exact (hsub.map Prod.fst).nodup j5
          · intro q hq
            exact j6 q (List.mem_of_mem_filter hq)
        cases hne : UrlModel.normalize e.1 with
        | none =>
          rw [crawlUrl_none hne] at hdone2 ⊢
          apply ih st2 hInv2 ?_ hdone2
          rcases hreach with h | ⟨m, hm⟩
          · exact Or.inl h
          · right
            refine ⟨m, ?_⟩
            apply List.mem_filter.mpr
            refine ⟨hm, ?_⟩
            simp only [decide_eq_true_iff]
            intro hk
            rw [← hk] at hne
            rw [hne] at hn'
            exact absurd hn' (by simp)
        | some ne =>
          obtain ⟨k1, k2, k3, k4⟩ := crawlUrl_main hne hInv2
          apply ih _ k1 ?_ hdone2
          rcases hreach with h | ⟨m, hm⟩
          · exact Or.inl (k2 _ h)
          · by_cases hkey : e.1 = n
            · left
              have hem : e = (n, m) := by
                apply eq_of_keys_nodup j5 hemem hm
                exact hkey
              have hdep : m.depth ≤ cfg.maxDepth := j6 (n, m) hm
              have hne2 : ne = n' := by
                rw [hkey] at hne
                rw [hne] at hn'
                injection hn'
              have hed : e.2.depth ≤ cfg.maxDepth := by
                rw [hem]
                exact hdep
              rw [← hne2]
              exact k4 hed
            · right
              refine ⟨m, k3 _ ?_⟩
              apply List.mem_filter.mpr
              refine ⟨hm, ?_⟩
              simp only [decide_eq_true_iff]
              intro hk
              exact hkey hk.symm
    · simp only [crawlBatchLoop, if_neg hc] at hdone ⊢
      refine ⟨hInv, ?_⟩
      rcases hreach with h | ⟨m, hm⟩
      · exact h
      · exfalso
        push_neg at hc
        have := hc.1
        have hlen : st.pendingUrls.length = 0 := by omega
        rw [List.length_eq_zero.mp hlen] at hm
        simp at hm

end Crawler

namespace Crawler

theorem crawlBatch_seed {w : World} {p : List CLink → String → List CLink}
    {cfg : CrawlerConfig} {fuel : Nat} {u n : String} {o : CrawlOptions}
    (hn : UrlModel.normalize u = some n) :
    crawlBatch w p cfg fuel initialState [u] o =
      crawlBatchLoop w p cfg fuel
        { initialState with
          pendingUrls := [(n, { depth := 0, priority := 10, parent := none })] } := by
  unfold crawlBatch
  simp only [List.foldl_cons, List.foldl_nil, hn]
  rfl

end Crawler

namespace Crawler

theorem crawlBatchLoop_step_one {w : World} {p : List CLink → String → List CLink}
    {cfg : CrawlerConfig} {f : Nat} {st : CrawlerState} {n : String}
    {m : PendingMeta} (hp : st.pendingUrls = [(n, m)]) :
    crawlBatchLoop w p cfg (f + 1) st =
      crawlBatchLoop w p cfg f
        (crawlUrl w p cfg { st with pendingUrls := [] } n m.depth m.priority 0).1 := by
  have hgn : getNextUrl st = some (n, m) := by
    unfold getNextUrl
    rw [hp]
    rfl
  have hfil : st.pendingUrls.filter (fun q => ¬ q.1 = n) = [] := by
    rw [hp]
    simp
  simp only [crawlBatchLoop]
  rw [if_pos (Or.inl (by rw [hp]; simp))]
  rw [hgn]
  show crawlBatchLoop w p cfg f
      (crawlUrl w p cfg
        { st with pendingUrls := st.pendingUrls.filter (fun q => ¬ q.1 = n) }
        n m.depth m.priority 0).1 = _
  rw [hfil]

theorem crawlBatchLoop_exit {w : World} {p : List CLink → String → List CLink}
    {cfg : CrawlerConfig} {f : Nat} {st : CrawlerState}
    (hp : st.pendingUrls = []) (ha : ¬ st.activeCrawls > 0) :
    crawlBatchLoop w p cfg (f + 1) st = (st, true) := by
  simp only [crawlBatchLoop]
  rw [if_neg]
  push_neg
  constructor
  · rw [hp]
    simp
  · omega

end Crawler

namespace Crawler

theorem crawlBatch_single_fail {w : World} {p : List CLink → String → List CLink}
    {cfg : CrawlerConfig} {f : Nat} {u n n' msg : String} {o : CrawlOptions}
    (hn : UrlModel.normalize u = some n) (hn' : UrlModel.normalize n = some n')
    (hw : w n' = .failure msg) (htr : isTransientMsg msg = false) :
    crawlBatch w p cfg (f + 2) initialState [u] o =
      ({ initialState with
         crawledUrls := [n'], failedUrls := [n'],
         activeCrawls := initialState.activeCrawls + 1 - 1,
         totalRequested := 1, totalFailed := 1,
         fetchLog := [n'], crawlErrorEvents := [n'] }, true) := by
  have hg : ¬ (initialState.crawledUrls.contains n' = true ∨
      initialState.failedUrls.contains n' = true ∨ 0 > cfg.maxDepth) := by
    simp [initialState]
  have htr2 : ¬ ((0:Nat) < 2 ∧ isTransientMsg msg) := by
    simp [htr]
  rw [crawlBatch_seed hn, crawlBatchLoop_step_one rfl]
  show crawlBatchLoop w p cfg (f + 1)
      (crawlUrl w p cfg initialState n 0 10 0).1 = _
  rw [crawlUrl_failure_final_eq hn' hg hw htr2]
  show crawlBatchLoop w p cfg (f + 1)
      { initialState with
        crawledUrls := [n'], failedUrls := [n'],
        activeCrawls := initialState.activeCrawls + 1 - 1,
        totalRequested := 1, totalFailed := 1,
        fetchLog := [n'], crawlErrorEvents := [n'] } = _
  have hact : ¬ ({ initialState with
      crawledUrls := [n'], failedUrls := [n'],
      activeCrawls := initialState.activeCrawls + 1 - 1,
      totalRequested := 1, totalFailed := 1,
      fetchLog := [n'], crawlErrorEvents := [n'] } : CrawlerState).activeCrawls > 0 := by
    norm_num [initialState]
  rw [@crawlBatchLoop_exit w p cfg f
    { initialState with
      crawledUrls := [n'], failedUrls := [n'],
      activeCrawls := initialState.activeCrawls + 1 - 1,
      totalRequested := 1, totalFailed := 1,
      fetchLog := [n'], crawlErrorEvents := [n'] } rfl hact]

end Crawler

namespace Crawler

theorem crawlBatch_single_transient {w : World}
    {p : List CLink → String → List CLink} {cfg : CrawlerConfig} {f : Nat}
    {u n n' msg : String} {o : CrawlOptions}
    (hn : UrlModel.normalize u = some n) (hn' : UrlModel.normalize n = some n')
    (hw : w n' = .failure msg) (htr : isTransientMsg msg = true) :
    crawlBatch w p cfg (f + 2) initialState [u] o =
      ({ initialState with
         crawledUrls := [n'], failedUrls := [n'],
         activeCrawls := initialState.activeCrawls + 1 - 1 - 1,
         totalRequested := 1, totalFailed := 1,
         fetchLog := [n'] }, true) := by
  have hg : ¬ (initialState.crawledUrls.contains n' = true ∨
      initialState.failedUrls.contains n' = true ∨ 0 > cfg.maxDepth) := by
    simp [initialState]
  have htr2 : (0:Nat) < 2 ∧ isTransientMsg msg := ⟨by omega, htr⟩
  rw [crawlBatch_seed hn, crawlBatchLoop_step_one rfl]
  show crawlBatchLoop w p cfg (f + 1)
      (crawlUrl w p cfg initialState n 0 10 0).1 = _
  rw [crawlUrl_failure_retry_eq hn' hg hw htr2]
  show crawlBatchLoop w p cfg (f + 1)
      { initialState with
        crawledUrls := [n'], failedUrls := [n'],
        activeCrawls := initialState.activeCrawls + 1 - 1 - 1,
        totalRequested := 1, totalFailed := 1,
        fetchLog := [n'] } = _
  have hact : ¬ ({ initialState with
      crawledUrls := [n'], failedUrls := [n'],
      activeCrawls := initialState.activeCrawls + 1 - 1 - 1,
      totalRequested := 1, totalFailed := 1,
      fetchLog := [n'] } : CrawlerState).activeCrawls > 0 := by
    norm_num [initialState]
  rw [@crawlBatchLoop_exit w p cfg f
    { initialState with
      crawledUrls := [n'], failedUrls := [n'],
      activeCrawls := initialState.activeCrawls + 1 - 1 - 1,
      totalRequested := 1, totalFailed := 1,
      fetchLog := [n'] } rfl hact]

theorem scheduleChildUrls_nil {p : List CLink → String → List CLink}
    {st : CrawlerState} {links : List CLink} {parent : String} {depth : Nat}
    (hp : p links parent = []) :
    scheduleChildUrls p st links parent depth = st := by
  unfold scheduleChildUrls
  rw [hp]
  rfl

theorem crawlBatch_single_success_nolinks {w : World}
    {p : List CLink → String → List CLink} {cfg : CrawlerConfig} {f : Nat}
    {u n n' : String} {o : CrawlOptions} {page : Page}
    (hn : UrlModel.normalize u = some n) (hn' : UrlModel.normalize n = some n')
    (hw : w n' = .success page) (hd : 0 < cfg.maxDepth)
    (hpl : p page.links n' = []) :
    crawlBatch w p cfg (f + 2) initialState [u] o =
      ({ initialState with
         crawledUrls := [n'],
         activeCrawls := initialState.activeCrawls + 1 - 1,
         totalRequested := 1, totalCompleted := 1,
         contentStore := [(n', { url := n', page := page, crawlDepth := 0,
                                 crawlPriority := 10 })],
         fetchLog := [n'] }, true) := by
  have hg : ¬ (initialState.crawledUrls.contains n' = true ∨
      initialState.failedUrls.contains n' = true ∨ 0 > cfg.maxDepth) := by
    simp [initialState]
  rw [crawlBatch_seed hn, crawlBatchLoop_step_one rfl]
  show crawlBatchLoop w p cfg (f + 1)
      (crawlUrl w p cfg initialState n 0 10 0).1 = _
  rw [crawlUrl_success_eq hn' hg hw]
  simp only [if_pos hd]
  rw [scheduleChildUrls_nil hpl]
  show crawlBatchLoop w p cfg (f + 1)
      { initialState with
        crawledUrls := [n'],
        activeCrawls := initialState.activeCrawls + 1 - 1,
        totalRequested := 1, totalCompleted := 1,
        contentStore := [(n', { url := n', page := page, crawlDepth := 0,
                                crawlPriority := 10 })],
        fetchLog := [n'] } = _
  have hact : ¬ ({ initialState with
      crawledUrls := [n'],
      activeCrawls := initialState.activeCrawls + 1 - 1,
      totalRequested := 1, totalCompleted := 1,
      contentStore := [(n', { url := n', page := page, crawlDepth := 0,
                              crawlPriority := 10 })],
      fetchLog := [n'] } : CrawlerState).activeCrawls > 0 := by
    norm_num [initialState]
  rw [@crawlBatchLoop_exit w p cfg f
    { initialState with
      crawledUrls := [n'],
      activeCrawls := initialState.activeCrawls + 1 - 1,
      totalRequested := 1, totalCompleted := 1,
      contentStore := [(n', { url := n', page := page, crawlDepth := 0,
                              crawlPriority := 10 })],
      fetchLog := [n'] } rfl hact]

end Crawler

namespace Crawler

theorem crawlBatch_cxWorld_run :
    crawlBatch cxWorld idPrioritize (mkConfig cxOptions) 10 initialState
      ["http://a.com"] cxOptions =
    ({ crawledUrls := ["http://a.com/", "http://a.com/page"],
       failedUrls := [],
       pendingUrls := [],
       activeCrawls := 0,
       totalRequested := 2, totalCompleted := 2, totalFailed := 0,
       contentStore :=
         [("http://a.com/",
           { url := "http://a.com/", page := { links := [{ url := "http://a.com/page", priority := 5 }] },
             crawlDepth := 0, crawlPriority := 10 }),
          ("http://a.com/page",
           { url := "http://a.com/page", page := { links := [] },
             crawlDepth := 1, crawlPriority := 5 })],
       fetchLog := ["http://a.com/", "http://a.com/page"],
       crawlErrorEvents := [], scheduledChildren := 1 }, true) := by
  rw [crawlBatch_seed (show UrlModel.normalize "http://a.com" = some "http://a.com/" by decide)]
  rw [crawlBatchLoop_step_one rfl]
  show crawlBatchLoop cxWorld idPrioritize (mkConfig cxOptions) 9
      (crawlUrl cxWorld idPrioritize (mkConfig cxOptions) initialState
        "http://a.com/" 0 10 0).1 = _
  have hn1 : UrlModel.normalize "http://a.com/" = some "http://a.com/" := by decide
  have hg1 : ¬ (initialState.crawledUrls.contains "http://a.com/" = true ∨
      initialState.failedUrls.contains "http://a.com/" = true ∨
      0 > (mkConfig cxOptions).maxDepth) := by decide
  have hw1 : cxWorld "http://a.com/" =
      .success { links := [{ url := "http://a.com/page", priority := 5 }] } := by decide
  rw [crawlUrl_success_eq hn1 hg1 hw1]
  simp only [if_pos (show 0 < (mkConfig cxOptions).maxDepth by decide)]
  show crawlBatchLoop cxWorld idPrioritize (mkConfig cxOptions) 9
      ({ crawledUrls := ["http://a.com/"],
         failedUrls := [],
         pendingUrls := [("http://a.com/page",
           { depth := 1, priority := 5, parent := some "http://a.com/" })],
         activeCrawls := 0 + 1 - 1,
         totalRequested := 1, totalCompleted := 1, totalFailed := 0,
         contentStore :=
           [("http://a.com/",
             { url := "http://a.com/",
               page := { links := [{ url := "http://a.com/page", priority := 5 }] },
               crawlDepth := 0, crawlPriority := 10 })],
         fetchLog := ["http://a.com/"],
         crawlErrorEvents := [], scheduledChildren := 1 } : CrawlerState) = _
  rw [crawlBatchLoop_step_one rfl]
  have hn2 : UrlModel.normalize "http://a.com/page" = some "http://a.com/page" := by decide
  have hg2 : ¬ ((["http://a.com/"] : List String).contains "http://a.com/page" = true ∨
      ([] : List String).contains "http://a.com/page" = true ∨
      1 > (mkConfig cxOptions).maxDepth) := by decide
  have hw2 : cxWorld "http://a.com/page" = .success { links := [] } := by decide
  rw [crawlUrl_success_eq hn2 hg2 hw2]
  simp only [if_pos (show 1 < (mkConfig cxOptions).maxDepth by decide)]
  rw [scheduleChildUrls_nil (rfl : idPrioritize ([] : List CLink) "http://a.com/page" = [])]
  show crawlBatchLoop cxWorld idPrioritize (mkConfig cxOptions) 8
      ({ crawledUrls := ["http://a.com/", "http://a.com/page"],
         failedUrls := [],
         pendingUrls := [],
         activeCrawls := 0,
         totalRequested := 2, totalCompleted := 2, totalFailed := 0,
         contentStore :=
           [("http://a.com/",
             { url := "http://a.com/",
               page := { links := [{ url := "http://a.com/page", priority := 5 }] },
               crawlDepth := 0, crawlPriority := 10 }),
            ("http://a.com/page",
             { url := "http://a.com/page", page := { links := [] },
               crawlDepth := 1, crawlPriority := 5 })],
         fetchLog := ["http://a.com/", "http://a.com/page"],
         crawlErrorEvents := [], scheduledChildren := 1 } : CrawlerState) = _
  rw [@crawlBatchLoop_exit cxWorld idPrioritize (mkConfig cxOptions) 7
    ({ crawledUrls := ["http://a.com/", "http://a.com/page"],
       failedUrls := [],
       pendingUrls := [],
       activeCrawls := 0,
       totalRequested := 2, totalCompleted := 2, totalFailed := 0,
       contentStore :=
         [("http://a.com/",
           { url := "http://a.com/",
             page := { links := [{ url := "http://a.com/page", priority := 5 }] },
             crawlDepth := 0, crawlPriority := 10 }),
          ("http://a.com/page",
           { url := "http://a.com/page", page := { links := [] },
             crawlDepth := 1, crawlPriority := 5 })],
       fetchLog := ["http://a.com/", "http://a.com/page"],
       crawlErrorEvents := [], scheduledChildren := 1 } : CrawlerState) rfl (by decide)]

end Crawler

namespace Crawler

theorem count_one_of_nodup_mem {l : List String} {a : String}
    (hn : l.Nodup) (hm : a ∈ l) : l.count a = 1 := by
  have h1 : l.count a ≤ 1 := List.nodup_iff_count_le_one.mp hn a
  have h2 : 0 < l.count a := List.count_pos_iff.mpr hm
  omega

theorem crawlBatch_seed_dedup {w : World} {p : List CLink → String → List CLink}
    {o opts : CrawlOptions} {fuel : Nat} {u n n' : String}
    (hn : UrlModel.normalize u = some n) (hn' : UrlModel.normalize n = some n')
    (hdone : (crawlBatch w p (mkConfig o) fuel initialState [u] opts).2 = true) :
    n' ∈ (crawlBatch w p (mkConfig o) fuel initialState [u] opts).1.crawledUrls ∧
    (n' ∈ (crawlBatch w p (mkConfig o) fuel initialState [u] opts).1.failedUrls ↔
      (w n').isFailure = true) ∧
    (crawlBatch w p (mkConfig o) fuel initialState [u] opts).1.fetchLog.count n' = 1 := by
  rw [crawlBatch_seed hn] at hdone ⊢
  have hInv0 : Inv w (mkConfig o)
      { initialState with
        pendingUrls := [(n, { depth := 0, priority := 10, parent := none })] } := by
    refine ⟨List.nodup_nil, ?_, ?_, ?_, ?_, ?_⟩
    · intro x
      simp [initialState]
    · intro x hx
      simp [initialState] at hx
    · intro x hx
      simp [initialState] at hx
    · simp [initialState]
    · intro e he
      simp only [List.mem_singleton] at he
      subst he
      exact Nat.zero_le _
  have hreach0 : n' ∈ ({ initialState with
        pendingUrls := [(n, { depth := 0, priority := 10, parent := none })] }
          : CrawlerState).crawledUrls ∨
      ∃ m, (n, m) ∈ ({ initialState with
        pendingUrls := [(n, { depth := 0, priority := 10, parent := none })] }
          : CrawlerState).pendingUrls := by
    right
    exact ⟨_, List.mem_singleton.mpr rfl⟩
  obtain ⟨hInvF, hmem⟩ := crawlBatchLoop_main hn' fuel _ hInv0 hreach0 hdone
  refine ⟨hmem, hInvF.2.2.2.1 n' hmem, ?_⟩
  exact count_one_of_nodup_mem hInvF.1 ((hInvF.2.1 n').mpr hmem)

theorem crawlBatch_failWorld_run :
    crawlBatch failWorld idPrioritize (mkConfig {}) 2 initialState
      ["http://a.com"] {} =
      ({ initialState with
         crawledUrls := ["http://a.com/"], failedUrls := ["http://a.com/"],
         activeCrawls := initialState.activeCrawls + 1 - 1,
         totalRequested := 1, totalFailed := 1,
         fetchLog := ["http://a.com/"],
         crawlErrorEvents := ["http://a.com/"] }, true) :=
  @crawlBatch_single_fail failWorld idPrioritize (mkConfig {}) 0 "http://a.com"
    "http://a.com/" "http://a.com/" "HTTP 500: Internal Server Error"
    (⟨none, none, none⟩ : CrawlOptions) (by decide) (by decide) rfl (by decide)

theorem crawlBatch_transientWorld_run :
    crawlBatch transientWorld idPrioritize (mkConfig {}) 2 initialState
      ["http://a.com"] {} =
      ({ initialState with
         crawledUrls := ["http://a.com/"], failedUrls := ["http://a.com/"],
         activeCrawls := initialState.activeCrawls + 1 - 1 - 1,
         totalRequested := 1, totalFailed := 1,
         fetchLog := ["http://a.com/"] }, true) :=
  @crawlBatch_single_transient transientWorld idPrioritize (mkConfig {}) 0
    "http://a.com" "http://a.com/" "http://a.com/"
    "Protocol error: Connection closed."
    (⟨none, none, none⟩ : CrawlOptions) (by decide) (by decide) rfl (by decide)

end Crawler

/-!
The claims.
-/

/-- C1, counterexample: the claim says a URL that finishes in the
failed set is in exactly one of {crawled, failed}.  In the code
crawlUrl adds the normalized URL to `crawledUrls` before fetching and
adds it to `failedUrls` on failure without removing it from
`crawledUrls`, so after `crawlBatch(["http://a.com"])` against a
fetch environment that fails with an HTTP error, the normalized URL
is a member of both sets. -/
theorem c1_counterexample :
    "http://a.com/" ∈ (Crawler.crawlBatch Crawler.failWorld
      Crawler.idPrioritize (Crawler.mkConfig {}) 2 Crawler.initialState
      ["http://a.com"] {}).1.crawledUrls ∧
    "http://a.com/" ∈ (Crawler.crawlBatch Crawler.failWorld
      Crawler.idPrioritize (Crawler.mkConfig {}) 2 Crawler.initialState
      ["http://a.com"] {}).1.failedUrls := by
  rw [Crawler.crawlBatch_failWorld_run]
  exact ⟨List.mem_singleton.mpr rfl, List.mem_singleton.mpr rfl⟩

/-- C1, amended: after a completed `crawlBatch([u])`, the renormalized
form n2 of u (crawlUrl re-normalizes the already normalized frontier
key, and normalization is not idempotent in general) is always in the
crawled set; it is additionally in the failed set exactly when its
fetch outcome is a failure; and its fetch is attempted exactly once in
the session, for every fetch environment and link prioritizer. -/
theorem c1_dedup_amended {w : Crawler.World}
    {p : List Crawler.CLink → String → List Crawler.CLink}
    {o opts : Crawler.CrawlOptions} {fuel : Nat} {u n n2 : String}
    (hn : UrlModel.normalize u = some n) (hn2 : UrlModel.normalize n = some n2)
    (hdone : (Crawler.crawlBatch w p (Crawler.mkConfig o) fuel
      Crawler.initialState [u] opts).2 = true) :
    n2 ∈ (Crawler.crawlBatch w p (Crawler.mkConfig o) fuel
      Crawler.initialState [u] opts).1.crawledUrls ∧
    (n2 ∈ (Crawler.crawlBatch w p (Crawler.mkConfig o) fuel
      Crawler.initialState [u] opts).1.failedUrls ↔
      (w n2).isFailure = true) ∧
    (Crawler.crawlBatch w p (Crawler.mkConfig o) fuel
      Crawler.initialState [u] opts).1.fetchLog.count n2 = 1 :=
  Crawler.crawlBatch_seed_dedup hn hn2 hdone

/-- C1, witness: the amended dedup claim at the concrete failing run. -/
theorem c1_dedup_amended_witness :
    "http://a.com/" ∈ (Crawler.crawlBatch Crawler.failWorld
      Crawler.idPrioritize (Crawler.mkConfig {}) 2 Crawler.initialState
      ["http://a.com"] {}).1.crawledUrls ∧
    ("http://a.com/" ∈ (Crawler.crawlBatch Crawler.failWorld
      Crawler.idPrioritize (Crawler.mkConfig {}) 2 Crawler.initialState
      ["http://a.com"] {}).1.failedUrls ↔
      (Crawler.failWorld "http://a.com/").isFailure = true) ∧
    (Crawler.crawlBatch Crawler.failWorld Crawler.idPrioritize
      (Crawler.mkConfig {}) 2 Crawler.initialState
      ["http://a.com"] {}).1.fetchLog.count "http://a.com/" = 1 :=
  @c1_dedup_amended Crawler.failWorld Crawler.idPrioritize
    (⟨none, none, none⟩ : Crawler.CrawlOptions)
    (⟨none, none, none⟩ : Crawler.CrawlOptions) 2 "http://a.com"
    "http://a.com/" "http://a.com/" (by decide) (by decide)
    (by rw [Crawler.crawlBatch_failWorld_run])

/-- C2, code bug: a fetch failing with a transient message ("Protocol
error...") is supposed to be retried up to 2 more times and, after
exhaustion, marked failed with a crawl-error event.  In the code the
normalized URL is added to `crawledUrls` before the fetch and to
`failedUrls` before the retry test, so the re-invoked crawlUrl is
rejected by the already-crawled guard: the batch completes with
exactly one fetch attempt, no crawl-error event at all, and the URL
already marked permanently failed. -/
theorem c2_transient_retry_vacuous :
    (Crawler.crawlBatch Crawler.transientWorld Crawler.idPrioritize
      (Crawler.mkConfig {}) 2 Crawler.initialState
      ["http://a.com"] {}).2 = true ∧
    (Crawler.crawlBatch Crawler.transientWorld Crawler.idPrioritize
      (Crawler.mkConfig {}) 2 Crawler.initialState
      ["http://a.com"] {}).1.fetchLog = ["http://a.com/"] ∧
    (Crawler.crawlBatch Crawler.transientWorld Crawler.idPrioritize
      (Crawler.mkConfig {}) 2 Crawler.initialState
      ["http://a.com"] {}).1.crawlErrorEvents = [] ∧
    (Crawler.crawlBatch Crawler.transientWorld Crawler.idPrioritize
      (Crawler.mkConfig {}) 2 Crawler.initialState
      ["http://a.com"] {}).1.failedUrls = ["http://a.com/"] := by
  rw [Crawler.crawlBatch_transientWorld_run]
  exact ⟨rfl, rfl, rfl, rfl⟩

/-- C3, counterexample: the claim says totalDocuments counts distinct
document ids.  In the code `this.totalDocuments++` runs
unconditionally on every indexContent call, so indexing the same id
twice yields totalDocuments = 2 while only one distinct id was ever
indexed. -/
theorem c3_counterexample :
    (SearchModel.runIndex (fun _ => [])
      [("d1", ⟨"u", "", "", 0, "", none, 0, [], [], [], []⟩),
       ("d1", ⟨"u", "", "", 0, "", none, 0, [], [], [], []⟩)]).totalDocuments = 2 ∧
    ([("d1", (⟨"u", "", "", 0, "", none, 0, [], [], [], []⟩ : SearchModel.SContent)),
      ("d1", ⟨"u", "", "", 0, "", none, 0, [], [], [], []⟩)].map Prod.fst).dedup.length
      = 1 :=
  ⟨rfl, by decide⟩

/-- C3, amended: totalDocuments equals the number of indexContent
calls made in the session (each call increments the counter once,
distinct id or not). -/
theorem c3_total_counts_calls (tok : String → List String)
    (calls : List (String × SearchModel.SContent)) :
    (SearchModel.runIndex tok calls).totalDocuments = calls.length :=
  SearchModel.totalDocuments_runIndex tok calls

/-- C4, counterexample: the claim says `crawlBatch([seed], {maxDepth: 0})`
crawls exactly one document and schedules no children.  In the code
crawlBatch never reads its options argument and the constructor's
`options.maxDepth || 3` coerces 0 to 3, so with maxDepth 0 requested
the effective depth limit is 3: the seed's child link is scheduled and
crawled, giving two documents and one scheduled child. -/
theorem c4_counterexample :
    (Crawler.mkConfig Crawler.cxOptions).maxDepth = 3 ∧
    (Crawler.crawlBatch Crawler.cxWorld Crawler.idPrioritize
      (Crawler.mkConfig Crawler.cxOptions) 10 Crawler.initialState
      ["http://a.com"] Crawler.cxOptions).1.contentStore.length = 2 ∧
    (Crawler.crawlBatch Crawler.cxWorld Crawler.idPrioritize
      (Crawler.mkConfig Crawler.cxOptions) 10 Crawler.initialState
      ["http://a.com"] Crawler.cxOptions).1.scheduledChildren = 1 := by
  rw [Crawler.crawlBatch_cxWorld_run]
  exact ⟨by decide, rfl, rfl⟩

/-- C4, amended: under the configuration built from `{maxDepth: 0}`
the effective depth limit is 3, and a batch on one seed whose page
yields no prioritized links completes with exactly one crawled
document (the seed) and zero scheduled children. -/
theorem c4_single_doc_amended {w : Crawler.World}
    {p : List Crawler.CLink → String → List Crawler.CLink} {f : Nat}
    {u n n2 : String} {page : Crawler.Page}
    (hn : UrlModel.normalize u = some n) (hn2 : UrlModel.normalize n = some n2)
    (hw : w n2 = .success page) (hpl : p page.links n2 = []) :
    (Crawler.mkConfig Crawler.cxOptions).maxDepth = 3 ∧
    (Crawler.crawlBatch w p (Crawler.mkConfig Crawler.cxOptions) (f + 2)
      Crawler.initialState [u] Crawler.cxOptions).2 = true ∧
    (Crawler.crawlBatch w p (Crawler.mkConfig Crawler.cxOptions) (f + 2)
      Crawler.initialState [u] Crawler.cxOptions).1.contentStore.length = 1 ∧
    (Crawler.crawlBatch w p (Crawler.mkConfig Crawler.cxOptions) (f + 2)
      Crawler.initialState [u] Crawler.cxOptions).1.scheduledChildren = 0 := by
  have h := @Crawler.crawlBatch_single_success_nolinks w p
    (Crawler.mkConfig Crawler.cxOptions) f u n n2 Crawler.cxOptions page
    hn hn2 hw (by decide) hpl
  rw [h]
  exact ⟨by decide, rfl, rfl, rfl⟩

/-- C4, witness: the amended single-document claim at a concrete
world whose pages have no links. -/
theorem c4_single_doc_amended_witness :
    (Crawler.mkConfig Crawler.cxOptions).maxDepth = 3 ∧
    (Crawler.crawlBatch (fun _ => Crawler.FetchOutcome.success { links := [] })
      Crawler.idPrioritize (Crawler.mkConfig Crawler.cxOptions) (0 + 2)
      Crawler.initialState ["http://a.com"] Crawler.cxOptions).2 = true ∧
    (Crawler.crawlBatch (fun _ => Crawler.FetchOutcome.success { links := [] })
      Crawler.idPrioritize (Crawler.mkConfig Crawler.cxOptions) (0 + 2)
      Crawler.initialState ["http://a.com"] Crawler.cxOptions).1.contentStore.length
      = 1 ∧
    (Crawler.crawlBatch (fun _ => Crawler.FetchOutcome.success { links := [] })
      Crawler.idPrioritize (Crawler.mkConfig Crawler.cxOptions) (0 + 2)
      Crawler.initialState ["http://a.com"] Crawler.cxOptions).1.scheduledChildren
      = 0 :=
  @c4_single_doc_amended (fun _ => Crawler.FetchOutcome.success { links := [] })
    Crawler.idPrioritize 0 "http://a.com" "http://a.com/" "http://a.com/"
    { links := [] } (by decide) (by decide) rfl rfl

/-- C5: for every term, the document-frequency entry after any
sequence of indexContent calls equals the number of distinct document
ids in the term's posting list, and a full clear resets it to 0. -/
theorem c5_df_matches_postings (tok : String → List String)
    (calls : List (String × SearchModel.SContent)) (t : String) :
    (SearchModel.postings (SearchModel.runIndex tok calls) t).Nodup ∧
    SearchModel.dfOf (SearchModel.runIndex tok calls) t =
      (SearchModel.postings (SearchModel.runIndex tok calls) t).length ∧
    SearchModel.dfOf (SearchModel.clearSearch (SearchModel.runIndex tok calls)) t
      = 0 :=
  ⟨(SearchModel.dfinv_runIndex tok calls t).1,
   (SearchModel.dfinv_runIndex tok calls t).2,
   rfl⟩

/-- C6: QualityScorer.calculate returns an integer in [0, 100] for
every input document, including the degenerate absent one. -/
theorem c6_quality_score_bounds (extractKeywords : String → List String)
    (now : ℚ) (content : Option Quality.QDoc) :
    0 ≤ Quality.calculate extractKeywords now content ∧
    Quality.calculate extractKeywords now content ≤ 100 := by
  cases content with
  | none => simp [Quality.calculate]
  | some c =>
    simp only [Quality.calculate]
    constructor
    · exact le_min (le_max_right _ _) (by norm_num)
    · exact min_le_right _ _

/-- C7: the word-count sub-score is monotone non-decreasing up to the
optimal threshold of 800 words. -/
theorem c7_score_word_count_mono (w1 w2 : ℚ) (h1 : w1 ≤ w2) (h2 : w2 ≤ 800) :
    Quality.scoreWordCount w1 ≤ Quality.scoreWordCount w2 := by
  unfold Quality.scoreWordCount Quality.minWordCount Quality.optimalWordCount
    Quality.maxWordCount
  rcases lt_or_le w1 100 with ha | ha
  · rw [if_pos ha]
    rcases lt_or_le w2 100 with hb | hb
    · rw [if_pos hb]; linarith
    · rw [if_neg (not_lt.2 hb), if_pos h2]
      have hd : (0:ℚ) ≤ (w2 - 100) / (800 - 100) * 50 := by
        apply mul_nonneg _ (by norm_num)
        exact div_nonneg (by linarith) (by norm_num)
      linarith
  · have ha2 : ¬ w2 < 100 := not_lt.2 (le_trans ha h1)
    rw [if_neg (not_lt.2 ha), if_neg ha2, if_pos (le_trans h1 h2), if_pos h2]
    linarith

/-- C7, witness: monotonicity at word counts 50 and 400. -/
theorem c7_score_word_count_mono_witness :
    (50 : ℚ) ≤ 400 ∧ (400 : ℚ) ≤ 800 ∧
    Quality.scoreWordCount 50 ≤ Quality.scoreWordCount 400 :=
  ⟨by norm_num, by norm_num,
   c7_score_word_count_mono 50 400 (by norm_num) (by norm_num)⟩

/-- C8: importIndex(exportIndex()) reproduces identical search output
(same documents, order and scores) for every fixed query and options. -/
theorem c8_export_import_roundtrip (tok : String → List String) (logF : ℚ → ℚ)
    (now : ℚ) (st : SearchModel.SearchState) (query : String)
    (options : SearchModel.SearchOptions) :
    SearchModel.search tok logF now
      (SearchModel.importIndex (SearchModel.exportIndex st)) query options =
    SearchModel.search tok logF now st query options := by
  rw [SearchModel.importIndex_exportIndex]

/-- C9, counterexample: normalization is not idempotent.  The code
sorts query parameters before lowercasing the whole serialized URL,
so a name that only becomes lowercase in the output can be ordered
differently on the second pass: normalize("http://example.com/?B=1&a=2")
= "http://example.com/?b=1&a=2", whose own normalization reorders to
"http://example.com/?a=2&b=1". -/
theorem c9_counterexample :
    UrlModel.normalize "http://example.com/?B=1&a=2" =
      some "http://example.com/?b=1&a=2" ∧
    UrlModel.normalize "http://example.com/?b=1&a=2" =
      some "http://example.com/?a=2&b=1" ∧
    "http://example.com/?a=2&b=1" ≠ "http://example.com/?b=1&a=2" :=
  ⟨by decide, by decide, by decide⟩

/-- C9, amended: normalization is idempotent on every URL whose query
parameter names contain no uppercase ASCII letter (so sorting and
lowercasing commute on it). -/
theorem c9_normalize_idem_amended {s t : String} {u : UrlModel.UrlRecord}
    (hp : UrlModel.parseUrl s.toList = some u)
    (hlow : ∀ pr ∈ u.params, ∀ c ∈ pr.1, ¬ (65 ≤ c.toNat ∧ c.toNat ≤ 90))
    (h : UrlModel.normalize s = some t) :
    UrlModel.normalize t = some t :=
  UrlModel.normalize_idem_of_lower_names hp hlow h

/-- C9, witness: idempotence at a URL with a lowercase parameter name. -/
theorem c9_normalize_idem_amended_witness :
    UrlModel.normalize "http://a.com/x?b=1" = some "http://a.com/x?b=1" :=
  @c9_normalize_idem_amended "http://a.com/x?b=1" "http://a.com/x?b=1"
    ⟨false, ['a', '.', 'c', 'o', 'm'], ['/', 'x'],
     [(['b'], ['1'])], []⟩ (by decide) (by decide) (by decide)

/-- C10: crawlBatch never reads its options parameter — runs with any
two options values over the same state, seeds and configuration are
the same computation. -/
theorem c10_options_unread (w : Crawler.World)
    (p : List Crawler.CLink → String → List Crawler.CLink)
    (cfg : Crawler.CrawlerConfig) (fuel : Nat) (st : Crawler.CrawlerState)
    (urls : List String) (o1 o2 : Crawler.CrawlOptions) :
    Crawler.crawlBatch w p cfg fuel st urls o1 =
    Crawler.crawlBatch w p cfg fuel st urls o2 :=
  rfl
